import Mathlib

/-!
Verification of the Git-Lite repository engine against its specification.

The engine's repository service (`src/repo_service.cpp`), access-control layer
(`src/gitlite_app.cpp`) and storage layer (`src/storage_manager.cpp`) are
shallowly embedded below.  File contents are modelled as lists of characters
(`Chars`), a repository's on-disk `.glite` state as the structure `RepoState`,
and each C++ operation as a pure Lean function mirroring the source line by
line.  The SHA-256 primitive (`hashing::sha256String`) is an external, opaque
function of the engine; it is passed to the embedded operations as an explicit
parameter `hash : Chars → String`.
-/

namespace GitLite

instance {ε α : Type} [DecidableEq ε] [DecidableEq α] : DecidableEq (Except ε α)
  | .error e, .error e' =>
    if h : e = e' then .isTrue (by rw [h]) else .isFalse (by simp [h])
  | .error _, .ok _ => .isFalse (by simp)
  | .ok _, .error _ => .isFalse (by simp)
  | .ok a, .ok b =>
    if h : a = b then .isTrue (by rw [h]) else .isFalse (by simp [h])

/-- File contents, byte-for-byte (as characters). -/
abbrev Chars := List Char

/-- The characters trimmed by `gitlite::util::trim` (`" \t\r\n"`). -/
def isWsChar (c : Char) : Bool := c = ' ' || c = '\t' || c = '\r' || c = '\n'

/-- `gitlite::util::trim`: strip leading and trailing whitespace. -/
def trimChars (cs : Chars) : Chars :=
  ((cs.dropWhile isWsChar).reverse.dropWhile isWsChar).reverse

/-- Split a character list at every occurrence of `d` (standard split:
yields one more token than there are delimiters). -/
def splitAll (d : Char) : Chars → List Chars
  | [] => [[]]
  | c :: rest =>
    if c = d then [] :: splitAll d rest
    else
      match splitAll d rest with
      | [] => [[c]]
      | t :: ts => (c :: t) :: ts

/-- `gitlite::util::split` / repeated `std::getline`: like `splitAll`, but an
empty input yields no tokens, and a trailing delimiter does not open a final
empty token (C++ `getline` fails once EOF is reached with nothing read). -/
def cppSplit (d : Char) (cs : Chars) : List Chars :=
  match cs with
  | [] => []
  | _ =>
    let ts := splitAll d cs
    if cs.getLast? = some d then ts.dropLast else ts

/-- The lines obtained by repeatedly calling `std::getline(in, line)`. -/
def getLines (cs : Chars) : List Chars := cppSplit '\n' cs

/-- The first `std::getline` on a file's contents (`none` when the read fails,
i.e. on an empty file). -/
def firstLine? (cs : Chars) : Option Chars := (getLines cs).head?

/-- Shorthand for the character list of a string literal. -/
def str (s : String) : Chars := s.data

/-- Lookup in an association list (first match), as `std::map`/directory
lookup by name. -/
def lookup {κ α : Type} [DecidableEq κ] : List (κ × α) → κ → Option α
  | [], _ => none
  | (k', v) :: rest, k => if k' = k then some v else lookup rest k

/-- Overwrite the entry for `k` (truncating file write), or create it. -/
def setEntry {κ α : Type} [DecidableEq κ] : List (κ × α) → κ → α → List (κ × α)
  | [], k, v => [(k, v)]
  | (k', v') :: rest, k, v =>
    if k' = k then (k, v) :: rest else (k', v') :: setEntry rest k v

/-- Remove the entry for `k` (`fs::remove` of the file). -/
def removeEntry {κ α : Type} [DecidableEq κ] : List (κ × α) → κ → List (κ × α)
  | [], _ => []
  | (k', v') :: rest, k =>
    if k' = k then rest else (k', v') :: removeEntry rest k

/-- The on-disk `.glite` state of one repository (plus its working tree).
`head` is the contents of `.glite/HEAD` (`none` when the file is missing);
`refs` maps a branch name to the contents of `refs/heads/<branch>`;
`tags` likewise for `refs/tags/<tag>`; `indexFile` is `.glite/index`;
`objects` maps an object file name to its contents; `logFile` is `.glite/log`;
`worktree` maps a repo-root-relative path (as components) to the contents of
any further regular file under the repository root (workspace files). -/
structure RepoState where
  head : Option Chars
  refs : List (String × Chars)
  tags : List (String × Chars)
  indexFile : Chars
  objects : List (String × Chars)
  logFile : Chars
  worktree : List (List String × Chars)
deriving DecidableEq, Repr

/-- `CommitRecord` (repo_service.hpp). -/
structure CommitRecord where
  id : String
  parent : String
  author : String
  timestamp : String
  message : String
  branch : String
  files : List (String × String)
deriving DecidableEq, Repr

/-- The all-empty `CommitRecord{}`. -/
def emptyRecord : CommitRecord := ⟨"", "", "", "", "", "", []⟩

/-- `RepoService::currentBranch` (repo_service.cpp:23-34). -/
def currentBranch (s : RepoState) : String :=
  match s.head with
  | none => "main"
  | some content =>
    match firstLine? content with
    | none => "main"
    | some line =>
      let t := trimChars line
      if (str "ref:").isPrefixOf t then String.mk (trimChars (t.drop 4)) else "main"

/-- `RepoService::setCurrentBranch` (repo_service.cpp:36-39). -/
def setCurrentBranch (s : RepoState) (branch : String) : RepoState :=
  { s with head := some (str "ref: " ++ branch.data ++ ['\n']) }

/-- `RepoService::branchHead` (repo_service.cpp:41-48). -/
def branchHead (s : RepoState) (branch : String) : String :=
  match lookup s.refs branch with
  | none => ""
  | some content =>
    match firstLine? content with
    | none => ""
    | some line => String.mk (trimChars line)

/-- `RepoService::updateBranchHead` (repo_service.cpp:50-59). -/
def updateBranchHead (s : RepoState) (branch commitId : String) : RepoState :=
  { s with refs := setEntry s.refs branch (commitId.data ++ ['\n']) }

/-- One line of `.glite/index`: accepted iff it splits into exactly two
tab-separated fields (repo_service.cpp:87-90). -/
def parseIndexLine (line : Chars) : Option (String × String) :=
  match cppSplit '\t' line with
  | [a, b] => some (String.mk a, String.mk b)
  | _ => none

/-- `RepoService::readIndex` (repo_service.cpp:79-93). -/
def readIndex (s : RepoState) : List (String × String) :=
  (getLines s.indexFile).filterMap fun line =>
    if line = [] then none else parseIndexLine line

/-- Serialized form of index entries, one `<path>\t<blob>\n` line each
(repo_service.cpp:95-101 and the `files:` section of a commit body). -/
def indexContent (entries : List (String × String)) : Chars :=
  (entries.map fun e => e.1.data ++ ['\t'] ++ e.2.data ++ ['\n']).flatten

/-- `RepoService::writeIndex` (repo_service.cpp:95-101). -/
def writeIndex (s : RepoState) (entries : List (String × String)) : RepoState :=
  { s with indexFile := indexContent entries }

/-- The single log line appended per commit record
(repo_service.cpp:270). -/
def logLine (r : CommitRecord) : Chars :=
  r.id.data ++ ['\t'] ++ r.branch.data ++ ['\t']
    ++ r.timestamp.data ++ ['\t'] ++ r.message.data ++ ['\n']

/-- `RepoService::appendLog` (repo_service.cpp:268-271). -/
def appendLog (s : RepoState) (r : CommitRecord) : RepoState :=
  { s with logFile := s.logFile ++ logLine r }

/-- The commit body assembled by `RepoService::commit`
(repo_service.cpp:159-168). -/
def commitBody (author ts branch parent message : String)
    (entries : List (String × String)) : Chars :=
  str "author=" ++ author.data ++ ['\n']
    ++ str "timestamp=" ++ ts.data ++ ['\n']
    ++ str "branch=" ++ branch.data ++ ['\n']
    ++ str "parent=" ++ (if parent = "" then str "null" else parent.data) ++ ['\n']
    ++ str "message=" ++ message.data ++ ['\n']
    ++ str "files:" ++ ['\n']
    ++ indexContent entries

/-- `RepoService::commit` (repo_service.cpp:144-192).  `hash` is
`hashing::sha256String`; `ts` the value of `util::timestamp()`.  Returns the
resulting repository state together with the outcome (the filled
`CommitRecord`, or the error string). -/
def commit (hash : Chars → String) (ts : String) (s : RepoState)
    (author message : String) : RepoState × Except String CommitRecord :=
  let indexEntries := readIndex s
  if indexEntries = [] then
    (s, .error "Nothing to commit (index empty).")
  else
    let branch := currentBranch s
    let parent := branchHead s branch
    let body := commitBody author ts branch parent message indexEntries
    let commitId := hash body
    let commitFileContent := str "id=" ++ commitId.data ++ ['\n'] ++ body
    let record : CommitRecord :=
      ⟨commitId, parent, author, ts, message, branch, indexEntries⟩
    let s1 := { s with objects := setEntry s.objects commitId commitFileContent }
    let s2 := updateBranchHead s1 branch commitId
    let s3 := writeIndex s2 []
    (appendLog s3 record, .ok record)

/-- `RepoService::commitExists` (repo_service.cpp:319-321). -/
def commitExists (s : RepoState) (commitId : String) : Bool :=
  (lookup s.objects commitId).isSome

/-- One iteration of the parse loop of `RepoService::readCommit`
(repo_service.cpp:282-315).  The accumulator carries the record built so far
and the `filesSection` flag. -/
def readCommitLine : CommitRecord × Bool → Chars → CommitRecord × Bool
  | (r, filesSection), line =>
  if (str "id=").isPrefixOf line then
    ({ r with id := String.mk (line.drop 3) }, filesSection)
  else if line = str "files:" then
    (r, true)
  else if filesSection = false then
    let keyChars := line.takeWhile fun c => c ≠ '='
    if keyChars.length = line.length then (r, filesSection)
    else
      let value := String.mk (line.drop (keyChars.length + 1))
      if keyChars = str "author" then ({ r with author := value }, filesSection)
      else if keyChars = str "timestamp" then ({ r with timestamp := value }, filesSection)
      else if keyChars = str "branch" then ({ r with branch := value }, filesSection)
      else if keyChars = str "parent" then
        ({ r with parent := if value = "null" then "" else value }, filesSection)
      else if keyChars = str "message" then ({ r with message := value }, filesSection)
      else (r, filesSection)
  else
    match cppSplit '\t' line with
    | [a, b] => ({ r with files := r.files ++ [(String.mk a, String.mk b)] }, filesSection)
    | _ => (r, filesSection)

/-- `RepoService::readCommit` (repo_service.cpp:273-317). -/
def readCommit (s : RepoState) (commitId : String) : CommitRecord :=
  match lookup s.objects commitId with
  | none => { emptyRecord with id := commitId }
  | some content =>
    ((getLines content).foldl readCommitLine ({ emptyRecord with id := commitId }, false)).1

/-- `RepoService::getCommit` (repo_service.cpp:560-565). -/
def getCommit (s : RepoState) (commitId : String) : CommitRecord :=
  if commitExists s commitId then readCommit s commitId else emptyRecord

/-- The walk of `RepoService::history` (repo_service.cpp:254-264); the fuel
argument is `limit - result.size()`, so the loop stops after `limit` pushes. -/
def historyLoop (s : RepoState) : String → Nat → List CommitRecord
  | _, 0 => []
  | current, n + 1 =>
    if current = "" then []
    else if commitExists s current = false then []
    else
      let record := readCommit s current
      if record.id = "" then []
      else record :: historyLoop s record.parent n

/-- `RepoService::history` (repo_service.cpp:248-266). -/
def history (s : RepoState) (branch : String) (limit : Nat) : List CommitRecord :=
  historyLoop s (branchHead s branch) limit

/-- The `"key: value"`-style object serialization written by both
`RepoService::mergeBranch` (repo_service.cpp:375-384) and
`RepoService::revertCommit` (repo_service.cpp:594-603) — byte-identical code
in the two functions. -/
def kvObjectContent (r : CommitRecord) : Chars :=
  str "id: " ++ r.id.data ++ ['\n']
    ++ str "parent: " ++ (if r.parent = "" then str "null" else r.parent.data) ++ ['\n']
    ++ str "author: " ++ r.author.data ++ ['\n']
    ++ str "timestamp: " ++ r.timestamp.data ++ ['\n']
    ++ str "branch: " ++ r.branch.data ++ ['\n']
    ++ str "message: " ++ r.message.data ++ ['\n']
    ++ indexContent r.files

/-- `RepoService::mergeBranch` (repo_service.cpp:343-390).  `ts1` and `ts2`
are the two successive calls to `util::timestamp()` (lines 360 and 363). -/
def mergeBranch (hash : Chars → String) (ts1 ts2 : String) (s : RepoState)
    (branch : String) : RepoState × Except String CommitRecord :=
  let current := currentBranch s
  if current = branch then (s, .error "Cannot merge branch into itself.")
  else
    let branchHeadId := branchHead s branch
    if branchHeadId = "" then
      (s, .error ("Branch '" ++ branch ++ "' has no commits."))
    else
      let currentHeadId := branchHead s current
      let branchCommit := readCommit s branchHeadId
      let mergeRecord : CommitRecord :=
        { id := hash (branchHeadId.data ++ currentHeadId.data ++ ts1.data)
          parent := currentHeadId
          author := "merge"
          timestamp := ts2
          message := "Merge branch '" ++ branch ++ "' into '" ++ current ++ "'"
          branch := current
          files := branchCommit.files }
      let s1 := { s with objects := setEntry s.objects mergeRecord.id (kvObjectContent mergeRecord) }
      let s2 := updateBranchHead s1 current mergeRecord.id
      (appendLog s2 mergeRecord, .ok mergeRecord)

/-- `RepoService::revertCommit` (repo_service.cpp:567-609).  `ts1` and `ts2`
are the two successive calls to `util::timestamp()` (lines 579 and 582). -/
def revertCommit (hash : Chars → String) (ts1 ts2 : String) (s : RepoState)
    (commitId author : String) : RepoState × Except String CommitRecord :=
  if commitExists s commitId = false then (s, .error "Commit not found.")
  else
    let originalCommit := readCommit s commitId
    let current := currentBranch s
    let currentHead := branchHead s current
    let revertRecord : CommitRecord :=
      { id := hash (commitId.data ++ currentHead.data ++ ts1.data)
        parent := currentHead
        author := author
        timestamp := ts2
        message := "Revert: " ++ originalCommit.message
        branch := current
        files := if originalCommit.parent = "" then []
                 else (readCommit s originalCommit.parent).files }
    let s1 := { s with objects := setEntry s.objects revertRecord.id (kvObjectContent revertRecord) }
    let s2 := updateBranchHead s1 current revertRecord.id
    (appendLog s2 revertRecord, .ok revertRecord)

/-- `RepoService::createBranch` (repo_service.cpp:194-212). -/
def createBranch (s : RepoState) (branchName : String) : RepoState × Except String Unit :=
  if (lookup s.refs branchName).isSome then (s, .error "Branch already exists.")
  else
    let current := currentBranch s
    let head := branchHead s current
    ({ s with refs := setEntry s.refs branchName (head.data ++ ['\n']) }, .ok ())

/-- `RepoService::rebaseBranch` (repo_service.cpp:392-408). -/
def rebaseBranch (s : RepoState) (branch : String) : RepoState × Except String Unit :=
  let current := currentBranch s
  if current = branch then (s, .error "Cannot rebase branch onto itself.")
  else
    let branchHeadId := branchHead s branch
    if branchHeadId = "" then
      (s, .error ("Branch '" ++ branch ++ "' has no commits."))
    else
      (updateBranchHead s current branchHeadId, .ok ())

/-- `RepoService::renameBranch` (repo_service.cpp:410-438). -/
def renameBranch (s : RepoState) (oldName newName : String) : RepoState × Except String Unit :=
  match lookup s.refs oldName with
  | none => (s, .error ("Branch '" ++ oldName ++ "' not found."))
  | some content =>
    if (lookup s.refs newName).isSome then
      (s, .error ("Branch '" ++ newName ++ "' already exists."))
    else
      let s1 := { s with refs := setEntry (removeEntry s.refs oldName) newName content }
      let current := currentBranch s1
      if current = oldName then (setCurrentBranch s1 newName, .ok ()) else (s1, .ok ())

/-- `RepoService::deleteBranch` (repo_service.cpp:440-461). -/
def deleteBranch (s : RepoState) (branchName : String) : RepoState × Except String Unit :=
  if (lookup s.refs branchName).isNone then
    (s, .error ("Branch '" ++ branchName ++ "' not found."))
  else if currentBranch s = branchName then
    (s, .error "Cannot delete current branch.")
  else
    ({ s with refs := removeEntry s.refs branchName }, .ok ())

/-- Decompose a relative path string into its components (`fs::path`
iteration: separators split; empty components are not produced). -/
def pathComponents (p : String) : List String :=
  ((cppSplit '/' p.data).map String.mk).filter fun c => c ≠ ""

/-- OS-level resolution of `base / comps`: `.` is skipped and `..` pops the
last component, as the filesystem resolves the path on access. -/
def resolvePath (base : List String) (comps : List String) : List String :=
  comps.foldl
    (fun acc c => if c = "." then acc else if c = ".." then acc.dropLast else acc ++ [c])
    base

/-- `RepoService::addFile` (repo_service.cpp:103-142).  The source file is
`workspace/<relativePath>` as the filesystem resolves it; `hash` is
`hashing::sha256File` on its contents.  Returns the new state, the success
flag and the message. -/
def addFile (hash : Chars → String) (s : RepoState) (relativePath : String) :
    RepoState × Bool × String :=
  let source := resolvePath ["workspace"] (pathComponents relativePath)
  match lookup s.worktree source with
  | none => (s, false, "File not found in workspace.")
  | some content =>
    let blobId := hash content
    let s1 := if (lookup s.objects blobId).isSome then s
              else { s with objects := setEntry s.objects blobId content }
    let entries := readIndex s1
    let entries' :=
      if entries.any (fun e => e.1 = relativePath) then
        entries.map fun e => if e.1 = relativePath then (e.1, blobId) else e
      else entries ++ [(relativePath, blobId)]
    (writeIndex s1 entries', true, "File staged: " ++ relativePath)

/-- The `sanitizeRelativePath` lambda of `GitLiteApp::handleAddCommand`
(gitlite_app.cpp:1409-1421): drop empty, `.` and `..` components. -/
def sanitizeRelativePath (comps : List String) : List String :=
  comps.filter fun t => ¬(t = "" ∨ t = "." ∨ t = "..")

/-- The repository state laid out by `StorageManager::createRepo`
(storage_manager.cpp:139-161): `HEAD = "ref: main\n"`, an empty
`refs/heads/main`, empty index and log, no objects. -/
def initialRepoState : RepoState :=
  { head := some (str "ref: main\n")
    refs := [("main", [])]
    tags := []
    indexFile := []
    objects := []
    logFile := []
    worktree := [] }

/-- A logged-in session (`GitLiteApp::Session`): username and role. -/
structure Session where
  username : String
  role : String
deriving DecidableEq, Repr

/-- The storage-layer state the access-control and transfer code consults:
the user registry (username to role), the set of existing repository
directories `(owner, repo)`, and the permission map keyed by
`"<owner>/<repo>"`. -/
structure AppState where
  users : List (String × String)
  dirs : List (String × String)
  perms : List (String × List String)
deriving DecidableEq, Repr

/-- `GitLiteApp::userExists` (gitlite_app.cpp:1149-1152). -/
def userExists (st : AppState) (username : String) : Bool :=
  st.users.any fun u => u.1 = username

/-- `StorageManager::repoExists` (storage_manager.cpp:135-137): the
repository directory exists. -/
def repoExists (st : AppState) (owner repo : String) : Bool :=
  st.dirs.contains (owner, repo)

/-- `GitLiteApp::hasWriteAccess` (gitlite_app.cpp:1154-1171). -/
def hasWriteAccess (session : Option Session) (perms : List (String × List String))
    (owner repo : String) : Bool :=
  match session with
  | none => false
  | some u =>
    if u.role = "admin" then true
    else if u.username = owner then true
    else
      match lookup perms (owner ++ "/" ++ repo) with
      | none => false
      | some collabs => collabs.contains u.username

/-- The access gate of `GitLiteApp::resolveRepoContext` for a tracked
repository (gitlite_app.cpp:1277-1287): `canWrite := hasWriteAccess`,
`canRead := canWrite || isPublic`; a write-requiring operation needs
`canWrite`, any other needs `canRead`.  `visibility` is the value of
`StorageManager::getVisibility`. -/
def accessGranted (requireWriteAccess : Bool) (session : Option Session)
    (perms : List (String × List String)) (visibility owner repo : String) : Bool :=
  let canWrite := hasWriteAccess session perms owner repo
  let canRead := canWrite || visibility = "public"
  if requireWriteAccess then canWrite else canRead

/-- `GitLiteApp::handleTransferCommand` (gitlite_app.cpp:1807-1854). -/
def handleTransferCommand (session : Option Session) (st : AppState)
    (repo newOwner : String) : AppState × String :=
  match session with
  | none => (st, "Error: Not logged in.")
  | some u =>
    if u.role ≠ "admin" ∧ repoExists st u.username repo = false then
      (st, "Error: Only repo owner or admin can transfer repositories.")
    else if userExists st newOwner = false then
      (st, "Error: User '" ++ newOwner ++ "' not found.")
    else if repoExists st u.username repo = false then
      (st, "Error: Repository not found.")
    else if repoExists st newOwner repo then
      (st, "Error: Repository already exists for user '" ++ newOwner ++ "'.")
    else
      let dirs' := (st.dirs.filter fun d => d ≠ (u.username, repo)) ++ [(newOwner, repo)]
      let oldKey := u.username ++ "/" ++ repo
      let newKey := newOwner ++ "/" ++ repo
      let perms' :=
        match lookup st.perms oldKey with
        | none => st.perms
        | some collabs => removeEntry (setEntry st.perms newKey collabs) oldKey
      ({ st with dirs := dirs', perms := perms' },
        "Repository transferred to '" ++ newOwner ++ "'.")

/-- A repository directory as `push`/`pull` see it: its `.glite/` and
`workspace/` subtrees, each an optional map from relative path components to
file contents (`none` when the directory does not exist). -/
structure RepoDirs where
  glite : Option (List (List String × Chars))
  workspace : Option (List (List String × Chars))
deriving DecidableEq, Repr

/-- `RepoService::copyDirectory` (repo_service.cpp:323-341): when the source
directory is missing the target is left untouched; otherwise the target is
removed and replaced by a recursive copy of the source. -/
def copyDirectory (source target : Option (List (List String × Chars))) :
    Option (List (List String × Chars)) :=
  match source with
  | none => target
  | some files => some files

/-- `RepoService::push` (repo_service.cpp:214-229): the remote directory is
removed and recreated empty, then `.glite/` and `workspace/` are copied in. -/
def push (localRepo : RepoDirs) (_remote : Option RepoDirs) :
    Option RepoDirs × Except String Unit :=
  let r1 : Option (List (List String × Chars)) := copyDirectory localRepo.glite none
  let r2 : Option (List (List String × Chars)) := copyDirectory localRepo.workspace none
  (some ⟨r1, r2⟩, .ok ())

/-- `RepoService::pull` (repo_service.cpp:231-246). -/
def pull (localRepo : RepoDirs) (remote : Option RepoDirs) :
    RepoDirs × Except String Unit :=
  match remote with
  | none => (localRepo, .error "Remote not found.")
  | some r =>
    ({ glite := copyDirectory r.glite localRepo.glite
       workspace := copyDirectory r.workspace localRepo.workspace }, .ok ())

/-- The objects of a repository directory: the files under
`.glite/objects/`. -/
def objectSet (d : RepoDirs) : List (List String × Chars) :=
  (d.glite.getD []).filter fun f => f.1.head? = some "objects"

/-- The refs of a repository directory: the files under `.glite/refs/`
(branch heads and tags). -/
def refSet (d : RepoDirs) : List (List String × Chars) :=
  (d.glite.getD []).filter fun f => f.1.head? = some "refs"

/-- The repository-mutating operations of claim C5, with the ambient
timestamps as data. -/
inductive Op where
  | commitOp (author message ts : String)
  | createBranchOp (name : String)
  | renameBranchOp (oldName newName : String)
  | deleteBranchOp (name : String)
  | checkoutOp (name : String)
  | mergeOp (branch ts1 ts2 : String)
  | rebaseOp (branch : String)

/-- The state transition of each operation (the error cases leave the state
unchanged, as the service returns before writing). -/
def step (hash : Chars → String) (s : RepoState) : Op → RepoState
  | .commitOp author message ts => (commit hash ts s author message).1
  | .createBranchOp name => (createBranch s name).1
  | .renameBranchOp oldName newName => (renameBranch s oldName newName).1
  | .deleteBranchOp name => (deleteBranch s name).1
  | .checkoutOp name => setCurrentBranch s name
  | .mergeOp branch ts1 ts2 => (mergeBranch hash ts1 ts2 s branch).1
  | .rebaseOp branch => (rebaseBranch s branch).1

/-- Invariant I4 of the specification: HEAD names a branch that has a refs
file. -/
def headValid (s : RepoState) : Bool :=
  (lookup s.refs (currentBranch s)).isSome

/-- `util::isValidIdentifier` (utils.cpp:56-63): nonempty, only
alphanumerics, `-`, `_`, `.`. -/
def isValidIdentifier (v : String) : Bool :=
  v ≠ "" && v.data.all fun c => c.isAlphanum || c = '-' || c = '_' || c = '.'

/-- The side conditions under which invariant I4 is preserved: a checkout
names an existing branch (with a well-formed identifier, as the outer command
layer validates names), and a rename's new name is a well-formed identifier.
All other operations need no condition. -/
def opPrecondition (s : RepoState) : Op → Prop
  | .checkoutOp name => isValidIdentifier name = true ∧ (lookup s.refs name).isSome
  | .renameBranchOp _ newName => isValidIdentifier newName = true
  | _ => True

/-- The body of a stored object file: everything after its first line (the
`id` line). -/
def objectBody (content : Chars) : Chars :=
  (content.dropWhile fun c => c ≠ '\n').drop 1

/-- A record with every field empty except `id` — what the commit parser
produces on a `"key: value"`-serialized object. -/
def onlyIdRecord (cid : String) : CommitRecord :=
  { emptyRecord with id := cid }

/-- Example: a repository one staged file away from its first commit. -/
def exStaged : RepoState :=
  { initialRepoState with indexFile := str "a.txt\tb1\n" }

/-- Example: a repository with branches `main` (head `c0`) and `dev` whose
head `c1` is a well-formed commit object holding one file. -/
def exTwoBranch : RepoState :=
  { head := some (str "ref: main\n")
    refs := [("main", str "c0\n"), ("dev", str "c1\n")]
    tags := []
    indexFile := []
    objects := [("c1", str "id=c1\nauthor=alice\ntimestamp=T\nbranch=dev\nparent=null\nmessage=m\nfiles:\nf.txt\tb9\n")]
    logFile := []
    worktree := [] }

/-- Example: like `exTwoBranch`, but the file recorded in `dev`'s head commit
is named `author=evil`, a legal workspace file name containing `=`. -/
def exEvil : RepoState :=
  { exTwoBranch with
    objects := [("c1", str "id=c1\nauthor=alice\ntimestamp=T\nbranch=dev\nparent=null\nmessage=m\nfiles:\nauthor=evil\tb9\n")] }

/-- Example: a repository whose only further file lies at `<root>/secret`,
outside `workspace/`. -/
def exOutside : RepoState :=
  { initialRepoState with worktree := [(["secret"], str "top")] }

/-- Example: a HEAD file whose first line carries leading whitespace. -/
def exWeirdHead : RepoState :=
  { initialRepoState with head := some (str "  ref: dev\n") }

/-- Example: the identity-like hash used to instantiate the opaque SHA-256
parameter on concrete inputs. -/
def idHash : Chars → String := fun cs => String.mk cs

/-- Example app state: admin `root`, users `alice` and `bob`; `alice` owns
`proj` with one collaborator entry. -/
def exApp : AppState :=
  { users := [("root", "admin"), ("alice", "user"), ("bob", "user")]
    dirs := [("alice", "proj")]
    perms := [("alice/proj", ["carol"])] }

/-! ### Association-list lemmas -/

theorem lookup_setEntry_self {κ α : Type} [DecidableEq κ] (l : List (κ × α)) (k : κ) (v : α) :
    lookup (setEntry l k v) k = some v := by
  induction l with
  | nil => simp [setEntry, lookup]
  | cons hd tl ih =>
    obtain ⟨k', v'⟩ := hd
    by_cases h : k' = k
    · simp [setEntry, lookup, h]
    · simp [setEntry, lookup, h, ih]

theorem lookup_setEntry_ne {κ α : Type} [DecidableEq κ] (l : List (κ × α)) (k k' : κ) (v : α)
    (h : k' ≠ k) : lookup (setEntry l k v) k' = lookup l k' := by
  induction l with
  | nil => simp [setEntry, lookup, Ne.symm h]
  | cons hd tl ih =>
    obtain ⟨k₀, v₀⟩ := hd
    by_cases h0 : k₀ = k
    · subst h0
      simp [setEntry, lookup, Ne.symm h]
    · simp only [setEntry, if_neg h0, lookup]
      by_cases h1 : k₀ = k'
      · simp [h1]
      · simp [h1, ih]

theorem lookup_removeEntry_ne {κ α : Type} [DecidableEq κ] (l : List (κ × α)) (k k' : κ)
    (h : k' ≠ k) : lookup (removeEntry l k) k' = lookup l k' := by
  induction l with
  | nil => simp [removeEntry]
  | cons hd tl ih =>
    obtain ⟨k₀, v₀⟩ := hd
    by_cases h0 : k₀ = k
    · subst h0
      simp [removeEntry, lookup, Ne.symm h]
    · simp only [removeEntry, if_neg h0, lookup]
      by_cases h1 : k₀ = k'
      · simp [h1]
      · simp [h1, ih]

theorem lookup_eq_none_of_all_ne {κ α : Type} [DecidableEq κ] (l : List (κ × α)) (k : κ)
    (h : ∀ p ∈ l, p.1 ≠ k) : lookup l k = none := by
  induction l with
  | nil => rfl
  | cons hd tl ih =>
    obtain ⟨k₀, v₀⟩ := hd
    have h0 : k₀ ≠ k := h (k₀, v₀) (by simp)
    simp only [lookup, if_neg h0]
    exact ih fun p hp => h p (by simp [hp])

theorem lookup_removeEntry_self {κ α : Type} [DecidableEq κ] (l : List (κ × α)) (k : κ)
    (hnd : (l.map Prod.fst).Nodup) : lookup (removeEntry l k) k = none := by
  induction l with
  | nil => rfl
  | cons hd tl ih =>
    obtain ⟨k₀, v₀⟩ := hd
    simp only [List.map_cons, List.nodup_cons] at hnd
    by_cases h0 : k₀ = k
    · subst h0
      simp only [removeEntry, if_pos rfl]
      exact lookup_eq_none_of_all_ne tl k₀ fun p hp hpk =>
        hnd.1 (hpk ▸ List.mem_map_of_mem Prod.fst hp)
    · simp only [removeEntry, if_neg h0, lookup, if_neg h0]
      exact ih hnd.2

/-! ### Line-splitting and trimming lemmas -/

theorem splitAll_ne_nil (d : Char) (cs : Chars) : splitAll d cs ≠ [] := by
  cases cs with
  | nil => simp [splitAll]
  | cons c rest =>
    simp only [splitAll]
    split
    · simp
    · split
      · simp
      · simp

theorem splitAll_append_cons (d : Char) (cs rest : Chars) (h : d ∉ cs) :
    splitAll d (cs ++ d :: rest) = cs :: splitAll d rest := by
  induction cs with
  | nil => simp [splitAll]
  | cons c t ih =>
    have hc : c ≠ d := by
      intro hcd
      exact h (by simp [hcd])
    have ht : d ∉ t := fun hm => h (by simp [hm])
    rw [List.cons_append]
    simp only [splitAll, if_neg hc]
    rw [ih ht]

theorem cppSplit_cons (d c : Char) (t : Chars) :
    cppSplit d (c :: t) =
      if (c :: t).getLast? = some d then (splitAll d (c :: t)).dropLast
      else splitAll d (c :: t) := rfl

theorem getLines_single (cs : Chars) (h : '\n' ∉ cs) : getLines (cs ++ ['\n']) = [cs] := by
  have hne : cs ++ ['\n'] ≠ [] := by simp
  rcases List.exists_cons_of_ne_nil hne with ⟨c, t, hcs⟩
  have h2 : splitAll '\n' (cs ++ ['\n']) = [cs, []] := by
    rw [show cs ++ ['\n'] = cs ++ '\n' :: [] from rfl, splitAll_append_cons '\n' cs [] h]
    rfl
  have h3 : (cs ++ ['\n']).getLast? = some '\n' := List.getLast?_concat cs
  rw [getLines, hcs, cppSplit_cons, ← hcs, h3, h2]
  simp

theorem getLines_append_cons (cs rest : Chars) (h : '\n' ∉ cs) (hr : rest ≠ []) :
    getLines (cs ++ '\n' :: rest) = cs :: getLines rest := by
  have hne : cs ++ '\n' :: rest ≠ [] := by simp
  rcases List.exists_cons_of_ne_nil hne with ⟨c, t, hcs⟩
  rcases List.exists_cons_of_ne_nil hr with ⟨r0, rt, hre⟩
  have h2 : splitAll '\n' (cs ++ '\n' :: rest) = cs :: splitAll '\n' rest :=
    splitAll_append_cons '\n' cs rest h
  have hlast : (cs ++ '\n' :: rest).getLast? = rest.getLast? := by
    rw [show cs ++ '\n' :: rest = (cs ++ ['\n']) ++ rest by simp]
    exact List.getLast?_append_of_ne_nil (cs ++ ['\n']) hr
  rw [getLines, hcs, cppSplit_cons, ← hcs, hlast, h2, getLines, hre, cppSplit_cons, ← hre]
  by_cases hl : rest.getLast? = some '\n'
  · rw [if_pos hl, if_pos hl, List.dropLast_cons_of_ne_nil (splitAll_ne_nil '\n' rest)]
  · rw [if_neg hl, if_neg hl]

theorem getLines_nil : getLines [] = [] := rfl

theorem indexContent_ne_nil (e : String × String) (t : List (String × String)) :
    indexContent (e :: t) ≠ [] := by
  simp [indexContent]

theorem getLines_indexContent (entries : List (String × String))
    (h : ∀ e ∈ entries, '\n' ∉ e.1.data ∧ '\n' ∉ e.2.data) :
    getLines (indexContent entries) =
      entries.map fun e => e.1.data ++ ['\t'] ++ e.2.data := by
  induction entries with
  | nil => rfl
  | cons e t ih =>
    have he := h e (by simp)
    have hline : '\n' ∉ e.1.data ++ ['\t'] ++ e.2.data := by
      intro hm
      rcases List.mem_append.1 hm with hm1 | hm2
      · rcases List.mem_append.1 hm1 with hm1a | hm1b
        · exact he.1 hm1a
        · simp at hm1b
      · exact he.2 hm2
    have hshape : indexContent (e :: t) =
        (e.1.data ++ ['\t'] ++ e.2.data) ++ '\n' :: indexContent t := by
      simp [indexContent, List.append_assoc]
    by_cases ht : t = []
    · subst ht
      rw [hshape]
      simp only [indexContent, List.map_nil, List.flatten_nil]
      rw [show ('\n' : Char) :: ([] : Chars) = ['\n'] from rfl, getLines_single _ hline]
      simp
    · rcases List.exists_cons_of_ne_nil ht with ⟨t0, tt, hte⟩
      rw [hshape,
        getLines_append_cons _ _ hline (by rw [hte]; exact indexContent_ne_nil t0 tt),
        ih fun x hx => h x (by simp [hx])]
      simp

theorem dropWhile_eq_self_of_head {p : Char → Bool} (l : Chars)
    (h : ∀ c, l.head? = some c → p c = false) : l.dropWhile p = l := by
  cases l with
  | nil => rfl
  | cons c t => simp [List.dropWhile, h c rfl]

theorem trimChars_eq_self (cs : Chars)
    (hh : ∀ c, cs.head? = some c → isWsChar c = false)
    (hl : ∀ c, cs.getLast? = some c → isWsChar c = false) : trimChars cs = cs := by
  unfold trimChars
  rw [dropWhile_eq_self_of_head cs hh,
    dropWhile_eq_self_of_head cs.reverse (by
      intro c hc
      rw [List.head?_reverse] at hc
      exact hl c hc),
    List.reverse_reverse]

/-! ### Parser-skip lemmas for the `"key: value"` object serialization -/

theorem takeWhile_eq_self_of_all {p : Char → Bool} (l : Chars) (h : ∀ c ∈ l, p c = true) :
    l.takeWhile p = l := by
  induction l with
  | nil => rfl
  | cons c t ih =>
    simp only [List.takeWhile_cons, h c (by simp), if_pos]
    rw [ih fun c hc => h c (by simp [hc])]

theorem takeWhile_append_of_all {p : Char → Bool} (l1 l2 : Chars) (h : ∀ c ∈ l1, p c = true) :
    (l1 ++ l2).takeWhile p = l1 ++ l2.takeWhile p := by
  induction l1 with
  | nil => simp
  | cons c t ih =>
    simp only [List.cons_append, List.takeWhile_cons, h c (by simp), if_pos]
    rw [ih fun c hc => h c (by simp [hc])]

theorem dropWhile_append_of_all {p : Char → Bool} (l1 l2 : Chars) (h : ∀ c ∈ l1, p c = true) :
    (l1 ++ l2).dropWhile p = l2.dropWhile p := by
  induction l1 with
  | nil => simp
  | cons c t ih =>
    simp only [List.cons_append, List.dropWhile_cons, h c (by simp), if_pos]
    exact ih fun c hc => h c (by simp [hc])

theorem mem_of_isPrefixOf {l1 l2 : Chars} (h : l1.isPrefixOf l2 = true) :
    ∀ c ∈ l1, c ∈ l2 := fun _ hc => (List.isPrefixOf_iff_prefix.1 h).subset hc

theorem readCommitLine_skip_noeq (r : CommitRecord) (line : Chars)
    (hne : line ≠ str "files:") (heq : '=' ∉ line) :
    readCommitLine (r, false) line = (r, false) := by
  have hpre : (str "id=").isPrefixOf line = false := by
    cases hp : (str "id=").isPrefixOf line
    · rfl
    · exact absurd (mem_of_isPrefixOf hp '=' (by decide)) heq
  have hkey : line.takeWhile (fun c => !decide (c = '=')) = line :=
    takeWhile_eq_self_of_all line fun c hc => by
      simp only [Bool.not_eq_true', decide_eq_false_iff_not]
      exact fun he => heq (he ▸ hc)
  simp [readCommitLine, hpre, hne, hkey]

theorem readCommitLine_skip_colon (r : CommitRecord) (kpre v : Chars)
    (hpre : (str "id=").isPrefixOf (kpre ++ v) = false)
    (hne : kpre ++ v ≠ str "files:")
    (hcol : ':' ∈ kpre) (hkeq : '=' ∉ kpre) :
    readCommitLine (r, false) (kpre ++ v) = (r, false) := by
  by_cases hv : '=' ∈ v
  · have hkey : (kpre ++ v).takeWhile (fun c => decide (c ≠ '=')) =
        kpre ++ v.takeWhile (fun c => decide (c ≠ '=')) :=
      takeWhile_append_of_all kpre v fun c hc =>
        decide_eq_true fun he => hkeq (he ▸ hc)
    have hknot : ∀ (w : Chars) (k : String), ':' ∉ str k → kpre ++ w ≠ str k := by
      intro w k hk hcontra
      exact hk (hcontra ▸ List.mem_append_left w hcol)
    simp only [readCommitLine, hpre, Bool.false_eq_true, if_false, if_neg hne,
      eq_self_iff_true, if_true]
    by_cases hlen : ((kpre ++ v).takeWhile (fun c => decide (c ≠ '='))).length
        = (kpre ++ v).length
    · rw [if_pos hlen]
    · rw [if_neg hlen, hkey, if_neg (hknot _ "author" (by decide)),
        if_neg (hknot _ "timestamp" (by decide)), if_neg (hknot _ "branch" (by decide)),
        if_neg (hknot _ "parent" (by decide)), if_neg (hknot _ "message" (by decide))]
  · refine readCommitLine_skip_noeq r (kpre ++ v) hne ?_
    intro hm
    rcases List.mem_append.1 hm with h1 | h2
    · exact hkeq h1
    · exact hv h2

theorem foldl_readCommitLine_skip (lines : List Chars) (r : CommitRecord)
    (h : ∀ l ∈ lines, readCommitLine (r, false) l = (r, false)) :
    lines.foldl readCommitLine (r, false) = (r, false) := by
  induction lines with
  | nil => rfl
  | cons l t ih =>
    rw [List.foldl_cons, h l (by simp)]
    exact ih fun x hx => h x (by simp [hx])

theorem not_mem_append_of {c : Char} {l1 l2 : Chars} (h1 : c ∉ l1) (h2 : c ∉ l2) :
    c ∉ l1 ++ l2 := by
  simp [h1, h2]

theorem getLines_kvObjectContent (r : CommitRecord)
    (hid : '\n' ∉ r.id.data) (hpar : '\n' ∉ r.parent.data) (hau : '\n' ∉ r.author.data)
    (hts : '\n' ∉ r.timestamp.data) (hbr : '\n' ∉ r.branch.data) (hmsg : '\n' ∉ r.message.data)
    (hfiles : ∀ e ∈ r.files, '\n' ∉ e.1.data ∧ '\n' ∉ e.2.data) :
    getLines (kvObjectContent r) =
      [str "id: " ++ r.id.data,
       str "parent: " ++ (if r.parent = "" then str "null" else r.parent.data),
       str "author: " ++ r.author.data,
       str "timestamp: " ++ r.timestamp.data,
       str "branch: " ++ r.branch.data,
       str "message: " ++ r.message.data]
      ++ r.files.map (fun e => e.1.data ++ ['\t'] ++ e.2.data) := by
  have h1 : '\n' ∉ str "id: " ++ r.id.data := not_mem_append_of (by decide) hid
  have h2 : '\n' ∉ str "parent: " ++ (if r.parent = "" then str "null" else r.parent.data) := by
    refine not_mem_append_of (by decide) ?_
    split
    · decide
    · exact hpar
  have h3 : '\n' ∉ str "author: " ++ r.author.data := not_mem_append_of (by decide) hau
  have h4 : '\n' ∉ str "timestamp: " ++ r.timestamp.data := not_mem_append_of (by decide) hts
  have h5 : '\n' ∉ str "branch: " ++ r.branch.data := not_mem_append_of (by decide) hbr
  have h6 : '\n' ∉ str "message: " ++ r.message.data := not_mem_append_of (by decide) hmsg
  have hshape : kvObjectContent r =
      (str "id: " ++ r.id.data) ++ '\n'
        :: ((str "parent: " ++ (if r.parent = "" then str "null" else r.parent.data)) ++ '\n'
        :: ((str "author: " ++ r.author.data) ++ '\n'
        :: ((str "timestamp: " ++ r.timestamp.data) ++ '\n'
        :: ((str "branch: " ++ r.branch.data) ++ '\n'
        :: ((str "message: " ++ r.message.data) ++ '\n'
        :: indexContent r.files))))) := by
    simp [kvObjectContent, List.append_assoc]
  have hconsne : ∀ (l : Chars) (x : Chars), l ++ '\n' :: x ≠ [] := by
    intro l x
    simp
  by_cases hf : r.files = []
  · rw [hshape, hf]
    rw [getLines_append_cons _ _ h1 (hconsne _ _), getLines_append_cons _ _ h2 (hconsne _ _),
      getLines_append_cons _ _ h3 (hconsne _ _), getLines_append_cons _ _ h4 (hconsne _ _),
      getLines_append_cons _ _ h5 (hconsne _ _)]
    rw [show indexContent [] = [] from rfl,
      show ('\n' : Char) :: ([] : Chars) = ['\n'] from rfl, getLines_single _ h6]
    simp
  · rcases List.exists_cons_of_ne_nil hf with ⟨f0, ft, hfe⟩
    rw [hshape]
    rw [getLines_append_cons _ _ h1 (hconsne _ _), getLines_append_cons _ _ h2 (hconsne _ _),
      getLines_append_cons _ _ h3 (hconsne _ _), getLines_append_cons _ _ h4 (hconsne _ _),
      getLines_append_cons _ _ h5 (hconsne _ _),
      getLines_append_cons _ _ h6 (by rw [hfe]; exact indexContent_ne_nil f0 ft),
      getLines_indexContent r.files hfiles]
    simp

theorem readCommit_kvObject (s : RepoState) (cid : String) (r : CommitRecord)
    (hlook : lookup s.objects cid = some (kvObjectContent r))
    (hid : '\n' ∉ r.id.data) (hpar : '\n' ∉ r.parent.data) (hau : '\n' ∉ r.author.data)
    (hts : '\n' ∉ r.timestamp.data) (hbr : '\n' ∉ r.branch.data) (hmsg : '\n' ∉ r.message.data)
    (hfiles : ∀ e ∈ r.files,
      ('\n' ∉ e.1.data ∧ '\n' ∉ e.2.data) ∧ ('=' ∉ e.1.data ∧ '=' ∉ e.2.data)) :
    readCommit s cid = onlyIdRecord cid := by
  have hlines := getLines_kvObjectContent r hid hpar hau hts hbr hmsg
    fun e he => (hfiles e he).1
  have hskip : ∀ l ∈ getLines (kvObjectContent r),
      readCommitLine (onlyIdRecord cid, false) l = (onlyIdRecord cid, false) := by
    rw [hlines]
    intro l hl
    rcases List.mem_append.1 hl with hkv | hfl
    · simp only [List.mem_cons, List.not_mem_nil, or_false] at hkv
      rcases hkv with rfl | rfl | rfl | rfl | rfl | rfl
      · exact readCommitLine_skip_colon _ (str "id: ") r.id.data rfl
          (by intro h; injection h with h1 _; exact absurd h1 (by decide))
          (by decide) (by decide)
      · exact readCommitLine_skip_colon _ (str "parent: ") _ rfl
          (by intro h; injection h with h1 _; exact absurd h1 (by decide))
          (by decide) (by decide)
      · exact readCommitLine_skip_colon _ (str "author: ") r.author.data rfl
          (by intro h; injection h with h1 _; exact absurd h1 (by decide))
          (by decide) (by decide)
      · exact readCommitLine_skip_colon _ (str "timestamp: ") r.timestamp.data rfl
          (by intro h; injection h with h1 _; exact absurd h1 (by decide))
          (by decide) (by decide)
      · exact readCommitLine_skip_colon _ (str "branch: ") r.branch.data rfl
          (by intro h; injection h with h1 _; exact absurd h1 (by decide))
          (by decide) (by decide)
      · exact readCommitLine_skip_colon _ (str "message: ") r.message.data rfl
          (by intro h; injection h with h1 _; exact absurd h1 (by decide))
          (by decide) (by decide)
    · rcases List.mem_map.1 hfl with ⟨e, he, rfl⟩
      refine readCommitLine_skip_noeq _ _ ?_ ?_
      · intro h
        have : '\t' ∈ str "files:" := by
          rw [← h]
          exact List.mem_append_left _ (List.mem_append_right _ (by decide))
        exact absurd this (by decide)
      · intro hm
        rcases List.mem_append.1 hm with hm1 | hm2
        · rcases List.mem_append.1 hm1 with hm1a | hm1b
          · exact (hfiles e he).2.1 hm1a
          · simp at hm1b
        · exact (hfiles e he).2.2 hm2
  rw [readCommit, hlook]
  exact congrArg Prod.fst (foldl_readCommitLine_skip _ _ hskip)

/-! ### Identifier and HEAD lemmas -/

theorem data_ne_nil_of_ne_empty (s : String) (h : s ≠ "") : s.data ≠ [] := by
  intro hd
  apply h
  cases s with
  | mk d =>
    have hd' : d = [] := hd
    subst hd'
    rfl

theorem validIdent_chars (b : String) (h : isValidIdentifier b = true) :
    b.data ≠ [] ∧ ∀ c ∈ b.data, isWsChar c = false := by
  simp only [isValidIdentifier, Bool.and_eq_true, List.all_eq_true, decide_eq_true_eq] at h
  obtain ⟨hne, hall⟩ := h
  refine ⟨data_ne_nil_of_ne_empty b (by simpa using hne), fun c hc => ?_⟩
  have hc' := hall c hc
  by_contra hws
  have hws' : isWsChar c = true := by simpa using hws
  have : c = ' ' ∨ c = '\t' ∨ c = '\r' ∨ c = '\n' := by
    simpa [isWsChar, or_assoc] using hws'
  rcases this with rfl | rfl | rfl | rfl <;> revert hc' <;> decide

theorem trimChars_space_cons (b : Chars) (hws : ∀ c ∈ b, isWsChar c = false) :
    trimChars (' ' :: b) = b := by
  unfold trimChars
  rw [List.dropWhile_cons, if_pos (show isWsChar ' ' = true by decide),
    dropWhile_eq_self_of_head b fun c hc => hws c (List.mem_of_mem_head? (by simp [hc])),
    dropWhile_eq_self_of_head b.reverse fun c hc => by
      rw [List.head?_reverse] at hc
      exact hws c (List.mem_of_mem_getLast? (by simp [hc])),
    List.reverse_reverse]

theorem currentBranch_setCurrentBranch (s : RepoState) (b : String)
    (hb : isValidIdentifier b = true) : currentBranch (setCurrentBranch s b) = b := by
  obtain ⟨hne, hws⟩ := validIdent_chars b hb
  have hnl : '\n' ∉ b.data := fun hm => absurd (hws '\n' hm) (by decide)
  have hline : '\n' ∉ str "ref: " ++ b.data := not_mem_append_of (by decide) hnl
  have hfl : firstLine? (str "ref: " ++ b.data ++ ['\n']) = some (str "ref: " ++ b.data) := by
    rw [firstLine?, getLines_single _ hline]
    rfl
  have hhead : ∀ c, (str "ref: " ++ b.data).head? = some c → isWsChar c = false := by
    intro c hc
    have hc' : c = 'r' := by
      have : (str "ref: " ++ b.data).head? = some 'r' := rfl
      rw [this] at hc
      exact (Option.some.inj hc).symm
    subst hc'
    decide
  have hlast : ∀ c, (str "ref: " ++ b.data).getLast? = some c → isWsChar c = false := by
    intro c hc
    rw [List.getLast?_append_of_ne_nil _ hne] at hc
    exact hws c (List.mem_of_mem_getLast? (by simp [hc]))
  have htrim : trimChars (str "ref: " ++ b.data) = str "ref: " ++ b.data :=
    trimChars_eq_self _ hhead hlast
  have hdrop : (str "ref: " ++ b.data).drop 4 = ' ' :: b.data := rfl
  simp only [currentBranch, setCurrentBranch, hfl, htrim]
  rw [if_pos (show List.isPrefixOf (str "ref:") (str "ref: " ++ b.data) = true from rfl),
    hdrop, trimChars_space_cons b.data hws]

/-! ### Claim C1 -/

/-- C1: for every repository state, `commit(repo, author, message)` fails on an
empty index leaving the state unchanged; on a non-empty index it succeeds,
writes `.glite/objects/<commit_id>` with content `id=<commit_id>\n` followed by
the body built in fixed order, where `commit_id = SHA-256(body)`, afterwards
`refs/heads/<current-branch>` contains the new commit id, the index is empty,
and exactly one line is appended to the log. -/
theorem commit_spec (hash : Chars → String) (ts author message : String) (s : RepoState)
    (hnl1 : '\n' ∉ (hash (commitBody author ts (currentBranch s)
        (branchHead s (currentBranch s)) message (readIndex s))).data)
    (hnl2 : '\n' ∉ (currentBranch s).data) (hnl3 : '\n' ∉ ts.data)
    (hnl4 : '\n' ∉ message.data) :
    (readIndex s = [] →
      commit hash ts s author message = (s, .error "Nothing to commit (index empty).")) ∧
    (readIndex s ≠ [] →
      ∃ s' r, commit hash ts s author message = (s', .ok r) ∧
        r.id = hash (commitBody author ts (currentBranch s)
          (branchHead s (currentBranch s)) message (readIndex s)) ∧
        r = ⟨r.id, branchHead s (currentBranch s), author, ts, message,
          currentBranch s, readIndex s⟩ ∧
        lookup s'.objects r.id = some (str "id=" ++ r.id.data ++ ['\n']
          ++ commitBody author ts (currentBranch s) (branchHead s (currentBranch s))
            message (readIndex s)) ∧
        lookup s'.refs (currentBranch s) = some (r.id.data ++ ['\n']) ∧
        readIndex s' = [] ∧
        s'.logFile = s.logFile ++ logLine r ∧
        (logLine r).count '\n' = 1) := by
  constructor
  · intro h
    simp [commit, h]
  · intro h
    set B := commitBody author ts (currentBranch s) (branchHead s (currentBranch s))
      message (readIndex s) with hB
    set R : CommitRecord := ⟨hash B, branchHead s (currentBranch s), author, ts, message,
      currentBranch s, readIndex s⟩ with hR
    set S1 : RepoState :=
      { s with objects :=
          setEntry s.objects (hash B) (str "id=" ++ (hash B).data ++ ['\n'] ++ B) } with hS1
    have hc : commit hash ts s author message =
        (appendLog (writeIndex (updateBranchHead S1 (currentBranch s) (hash B)) []) R,
          .ok R) := by
      simp only [commit, if_neg h, hB, hR, hS1]
    refine ⟨_, _, hc, rfl, rfl, ?_, ?_, ?_, ?_, ?_⟩
    · exact lookup_setEntry_self _ _ _
    · exact lookup_setEntry_self _ _ _
    · rfl
    · rfl
    · have c0 : ∀ (l : Chars), '\n' ∉ l → l.count '\n' = 0 :=
        fun l hl => List.count_eq_zero.2 hl
      simp [logLine, List.count_append, c0 _ hnl1, c0 _ hnl2, c0 _ hnl3, c0 _ hnl4]

/-- Witness for `commit_spec` at a concrete one-file repository. -/
theorem commit_spec_witness :
    ('\n' ∉ ((fun _ => "c1") (commitBody "alice" "T1" (currentBranch exStaged)
        (branchHead exStaged (currentBranch exStaged)) "m1" (readIndex exStaged)) :
        String).data ∧
      '\n' ∉ (currentBranch exStaged).data ∧ '\n' ∉ ("T1" : String).data ∧
      '\n' ∉ ("m1" : String).data ∧ readIndex exStaged ≠ []) ∧
    (∃ s' r, commit (fun _ => "c1") "T1" exStaged "alice" "m1" = (s', .ok r) ∧
      r.id = (fun _ => "c1") (commitBody "alice" "T1" (currentBranch exStaged)
        (branchHead exStaged (currentBranch exStaged)) "m1" (readIndex exStaged)) ∧
      r = ⟨r.id, branchHead exStaged (currentBranch exStaged), "alice", "T1", "m1",
        currentBranch exStaged, readIndex exStaged⟩ ∧
      lookup s'.objects r.id = some (str "id=" ++ r.id.data ++ ['\n']
        ++ commitBody "alice" "T1" (currentBranch exStaged)
          (branchHead exStaged (currentBranch exStaged)) "m1" (readIndex exStaged)) ∧
      lookup s'.refs (currentBranch exStaged) = some (r.id.data ++ ['\n']) ∧
      readIndex s' = [] ∧
      s'.logFile = exStaged.logFile ++ logLine r ∧
      (logLine r).count '\n' = 1) :=
  ⟨⟨by decide, by decide, by decide, by decide, by decide⟩,
    (commit_spec (fun _ => "c1") "T1" "alice" "m1" exStaged
      (by decide) (by decide) (by decide) (by decide)).2 (by decide)⟩

/-! ### Success-shape lemmas for merge and revert -/

theorem historyLoop_empty (s : RepoState) (n : Nat) : historyLoop s "" n = [] := by
  cases n with
  | zero => rfl
  | succ m => simp [historyLoop]

theorem mergeBranch_ok (hash : Chars → String) (ts1 ts2 : String) (s : RepoState)
    (branchName : String) (s' : RepoState) (r : CommitRecord)
    (hrun : mergeBranch hash ts1 ts2 s branchName = (s', .ok r)) :
    currentBranch s ≠ branchName ∧ branchHead s branchName ≠ "" ∧
    r = ⟨hash ((branchHead s branchName).data ++ (branchHead s (currentBranch s)).data
          ++ ts1.data),
        branchHead s (currentBranch s), "merge", ts2,
        "Merge branch '" ++ branchName ++ "' into '" ++ currentBranch s ++ "'",
        currentBranch s, (readCommit s (branchHead s branchName)).files⟩ ∧
    s' = appendLog (updateBranchHead
        { s with objects := setEntry s.objects r.id (kvObjectContent r) }
        (currentBranch s) r.id) r := by
  by_cases hc : currentBranch s = branchName
  · simp only [mergeBranch, if_pos hc] at hrun
    simp at hrun
  · by_cases hh : branchHead s branchName = ""
    · simp only [mergeBranch, if_neg hc, if_pos hh] at hrun
      simp at hrun
    · simp only [mergeBranch, if_neg hc, if_neg hh] at hrun
      injection hrun with h1 h2
      injection h2 with h2
      subst h2
      subst h1
      exact ⟨hc, hh, rfl, rfl⟩

theorem revertCommit_ok (hash : Chars → String) (ts1 ts2 : String) (s : RepoState)
    (cid author : String) (s' : RepoState) (r : CommitRecord)
    (hrun : revertCommit hash ts1 ts2 s cid author = (s', .ok r)) :
    commitExists s cid = true ∧
    r = ⟨hash (cid.data ++ (branchHead s (currentBranch s)).data ++ ts1.data),
        branchHead s (currentBranch s), author, ts2,
        "Revert: " ++ (readCommit s cid).message, currentBranch s,
        if (readCommit s cid).parent = "" then []
        else (readCommit s (readCommit s cid).parent).files⟩ ∧
    s' = appendLog (updateBranchHead
        { s with objects := setEntry s.objects r.id (kvObjectContent r) }
        (currentBranch s) r.id) r := by
  by_cases he : commitExists s cid = false
  · simp only [revertCommit, if_pos he] at hrun
    simp at hrun
  · simp only [revertCommit, if_neg he] at hrun
    injection hrun with h1 h2
    injection h2 with h2
    subst h2
    subst h1
    exact ⟨by simpa using he, rfl, rfl⟩

/-! ### Claim C3 -/

/-- C3: `merge_branch(other)` fails exactly when `other` equals the current
branch or `other`'s branch head is empty (and then the state is unchanged); on
success it creates a commit record whose parent is the current branch head,
whose author is `"merge"`, whose message is
`Merge branch '<other>' into '<current>'`, whose file list is exactly the file
list of `other`'s head commit, writes the record's object, and updates the
current branch's ref to the new commit's id. -/
theorem mergeBranch_spec (hash : Chars → String) (ts1 ts2 : String) (s : RepoState)
    (branch : String) (s' : RepoState) (res : Except String CommitRecord)
    (hrun : mergeBranch hash ts1 ts2 s branch = (s', res)) :
    ((∃ e, res = .error e) ↔ (currentBranch s = branch ∨ branchHead s branch = "")) ∧
    (∀ e, res = .error e → s' = s) ∧
    (∀ r, res = .ok r →
      r.parent = branchHead s (currentBranch s) ∧
      r.author = "merge" ∧
      r.message = "Merge branch '" ++ branch ++ "' into '" ++ currentBranch s ++ "'" ∧
      r.branch = currentBranch s ∧
      r.files = (readCommit s (branchHead s branch)).files ∧
      lookup s'.objects r.id = some (kvObjectContent r) ∧
      lookup s'.refs (currentBranch s) = some (r.id.data ++ ['\n'])) := by
  by_cases hc : currentBranch s = branch
  · simp only [mergeBranch, if_pos hc] at hrun
    injection hrun with h1 h2
    subst h1
    subst h2
    refine ⟨⟨fun _ => Or.inl hc, fun _ => ⟨_, rfl⟩⟩, fun e _ => rfl, fun r hr => ?_⟩
    simp at hr
  · by_cases hh : branchHead s branch = ""
    · simp only [mergeBranch, if_neg hc, if_pos hh] at hrun
      injection hrun with h1 h2
      subst h1
      subst h2
      refine ⟨⟨fun _ => Or.inr hh, fun _ => ⟨_, rfl⟩⟩, fun e _ => rfl, fun r hr => ?_⟩
      simp at hr
    · simp only [mergeBranch, if_neg hc, if_neg hh] at hrun
      injection hrun with h1 h2
      subst h1
      refine ⟨⟨fun ⟨e, he⟩ => absurd (h2.trans he) (by simp),
        fun hor => absurd hor (by simp [hc, hh])⟩,
        fun e he => absurd (h2.trans he) (by simp), fun r hr => ?_⟩
      have hr' : r = _ := (Except.ok.inj (h2.trans hr)).symm
      subst hr'
      refine ⟨rfl, rfl, rfl, rfl, rfl, ?_, ?_⟩
      · exact lookup_setEntry_self _ _ _
      · exact lookup_setEntry_self _ _ _

/-- Witness for `mergeBranch_spec` at a concrete two-branch repository. -/
theorem mergeBranch_spec_witness :
    (mergeBranch idHash "T1" "T2" exTwoBranch "dev" =
      ((mergeBranch idHash "T1" "T2" exTwoBranch "dev").1,
        (mergeBranch idHash "T1" "T2" exTwoBranch "dev").2)) ∧
    (((∃ e, (mergeBranch idHash "T1" "T2" exTwoBranch "dev").2 = .error e) ↔
        (currentBranch exTwoBranch = "dev" ∨ branchHead exTwoBranch "dev" = "")) ∧
      (∀ e, (mergeBranch idHash "T1" "T2" exTwoBranch "dev").2 = .error e →
        (mergeBranch idHash "T1" "T2" exTwoBranch "dev").1 = exTwoBranch) ∧
      (∀ r, (mergeBranch idHash "T1" "T2" exTwoBranch "dev").2 = .ok r →
        r.parent = branchHead exTwoBranch (currentBranch exTwoBranch) ∧
        r.author = "merge" ∧
        r.message = "Merge branch '" ++ "dev" ++ "' into '"
          ++ currentBranch exTwoBranch ++ "'" ∧
        r.branch = currentBranch exTwoBranch ∧
        r.files = (readCommit exTwoBranch (branchHead exTwoBranch "dev")).files ∧
        lookup (mergeBranch idHash "T1" "T2" exTwoBranch "dev").1.objects r.id =
          some (kvObjectContent r) ∧
        lookup (mergeBranch idHash "T1" "T2" exTwoBranch "dev").1.refs
          (currentBranch exTwoBranch) = some (r.id.data ++ ['\n']))) :=
  ⟨rfl, mergeBranch_spec idHash "T1" "T2" exTwoBranch "dev"
    (mergeBranch idHash "T1" "T2" exTwoBranch "dev").1
    (mergeBranch idHash "T1" "T2" exTwoBranch "dev").2 rfl⟩

/-! ### Claim C2 -/

theorem objectBody_commitObject (idStr : String) (body : Chars) (hid : '\n' ∉ idStr.data) :
    objectBody (str "id=" ++ idStr.data ++ ['\n'] ++ body) = body := by
  have h1 : ∀ c ∈ str "id=" ++ idStr.data, (decide (c ≠ '\n')) = true := by
    intro c hc
    refine decide_eq_true fun he => ?_
    subst he
    rcases List.mem_append.1 hc with h | h
    · exact absurd h (by decide)
    · exact hid h
  rw [objectBody,
    show str "id=" ++ idStr.data ++ ['\n'] ++ body
      = (str "id=" ++ idStr.data) ++ ('\n' :: body) by simp [List.append_assoc],
    dropWhile_append_of_all _ _ h1, List.dropWhile_cons,
    if_neg (by simp)]
  simp

/-- C2 counterexample: at a concrete repository the object file written by
`mergeBranch` stores an id that is not the hash of the object's body — the
hashed string (`otherHead ++ currentHead ++ timestamp`) differs outright from
the body, so with the hash instantiated to the identity the ids differ. -/
theorem mergeCommit_id_counterexample :
    ∃ s' r, mergeBranch idHash "T1" "T2" exTwoBranch "dev" = (s', .ok r) ∧
      lookup s'.objects r.id = some (kvObjectContent r) ∧
      r.id ≠ idHash (objectBody (kvObjectContent r)) ∧
      str "c1" ++ str "c0" ++ str "T1" ≠ objectBody (kvObjectContent r) :=
  ⟨_, _, rfl, by decide, by decide, by decide⟩

/-- C2 amended: objects written by `commit` do satisfy stored-id =
SHA-256(body); but the commit records written by `merge_branch` and
`revert_commit` instead carry id = SHA-256 of `otherHead ++ currentHead ++
timestamp` (resp. `cid ++ currentHead ++ timestamp`), not of the object's
body. -/
theorem objectId_spec (hash : Chars → String)
    (ts ts1 ts2 author message cid branchName : String) (s : RepoState)
    (hnl : '\n' ∉ (hash (commitBody author ts (currentBranch s)
        (branchHead s (currentBranch s)) message (readIndex s))).data) :
    (∀ s' r, commit hash ts s author message = (s', .ok r) →
      ∃ content, lookup s'.objects r.id = some content ∧
        r.id = hash (objectBody content)) ∧
    (∀ s' r, mergeBranch hash ts1 ts2 s branchName = (s', .ok r) →
      lookup s'.objects r.id = some (kvObjectContent r) ∧
      r.id = hash ((branchHead s branchName).data
        ++ (branchHead s (currentBranch s)).data ++ ts1.data)) ∧
    (∀ s' r, revertCommit hash ts1 ts2 s cid author = (s', .ok r) →
      lookup s'.objects r.id = some (kvObjectContent r) ∧
      r.id = hash (cid.data ++ (branchHead s (currentBranch s)).data ++ ts1.data)) := by
  refine ⟨?_, ?_, ?_⟩
  · intro s' r hrun
    by_cases h : readIndex s = []
    · simp [commit, h] at hrun
    · simp only [commit, if_neg h] at hrun
      injection hrun with h1 h2
      injection h2 with h2
      subst h2
      subst h1
      refine ⟨_, lookup_setEntry_self _ _ _, ?_⟩
      rw [objectBody_commitObject _ _ hnl]
  · intro s' r hrun
    obtain ⟨_, _, hr, hs⟩ := mergeBranch_ok hash ts1 ts2 s branchName s' r hrun
    subst hs
    exact ⟨lookup_setEntry_self _ _ _, by rw [hr]⟩
  · intro s' r hrun
    obtain ⟨_, hr, hs⟩ := revertCommit_ok hash ts1 ts2 s cid author s' r hrun
    subst hs
    exact ⟨lookup_setEntry_self _ _ _, by rw [hr]⟩

/-- Witness for `objectId_spec` at a concrete repository: the merge and the
revert both succeed there. -/
theorem objectId_spec_witness :
    ('\n' ∉ (((fun _ => "h0") : Chars → String) (commitBody "alice" "T3"
      (currentBranch exTwoBranch) (branchHead exTwoBranch (currentBranch exTwoBranch))
      "m" (readIndex exTwoBranch))).data) ∧
    ((∀ s' r, commit (fun _ => "h0") "T3" exTwoBranch "alice" "m" = (s', .ok r) →
      ∃ content, lookup s'.objects r.id = some content ∧
        r.id = (fun _ => "h0") (objectBody content)) ∧
    (∀ s' r, mergeBranch (fun _ => "h0") "T1" "T2" exTwoBranch "dev" = (s', .ok r) →
      lookup s'.objects r.id = some (kvObjectContent r) ∧
      r.id = (fun _ => "h0") ((branchHead exTwoBranch "dev").data
        ++ (branchHead exTwoBranch (currentBranch exTwoBranch)).data
        ++ ("T1" : String).data)) ∧
    (∀ s' r, revertCommit (fun _ => "h0") "T1" "T2" exTwoBranch "c1" "alice" = (s', .ok r) →
      lookup s'.objects r.id = some (kvObjectContent r) ∧
      r.id = (fun _ => "h0") (("c1" : String).data
        ++ (branchHead exTwoBranch (currentBranch exTwoBranch)).data
        ++ ("T1" : String).data))) :=
  ⟨by decide, objectId_spec (fun _ => "h0") "T3" "T1" "T2" "alice" "m" "c1" "dev"
    exTwoBranch (by decide)⟩

/-! ### Claim C9 -/

/-- C9 counterexample: when a file recorded in the merged branch's head is
named `author=evil`, the commit parser *does* set the `author` field of the
merge record (from the file line `author=evil\tb9`), so `get_commit` on a
merge commit does not always return a record with every non-id field empty. -/
theorem mergeCommit_parse_counterexample :
    ∃ s' r, mergeBranch idHash "T1" "T2" exEvil "dev" = (s', .ok r) ∧
      (getCommit s' r.id).author = "evil\tb9" ∧
      (getCommit s' r.id).author ≠ "" :=
  ⟨_, _, rfl, by decide, by decide⟩

/-- C9 amended: for a commit written by `merge_branch` or `revert_commit`
whose record fields are newline-free and whose file entries contain no `=`,
`get_commit` on its id returns a record in which only the id field is set
(the `"key: value"` lines and the headerless file lines are all ignored by
the parser), and `history` on the branch returns exactly that one record for
every positive limit. -/
theorem kvObject_getCommit_spec (hash : Chars → String)
    (ts1 ts2 branchName cid author : String) (s s' : RepoState) (r : CommitRecord)
    (hrun : mergeBranch hash ts1 ts2 s branchName = (s', .ok r) ∨
      revertCommit hash ts1 ts2 s cid author = (s', .ok r))
    (hid : '\n' ∉ r.id.data) (hidt : trimChars r.id.data = r.id.data) (hidne : r.id ≠ "")
    (hpar : '\n' ∉ r.parent.data) (hau : '\n' ∉ r.author.data)
    (hts : '\n' ∉ r.timestamp.data) (hbr : '\n' ∉ r.branch.data)
    (hmsg : '\n' ∉ r.message.data)
    (hfiles : ∀ e ∈ r.files,
      ('\n' ∉ e.1.data ∧ '\n' ∉ e.2.data) ∧ ('=' ∉ e.1.data ∧ '=' ∉ e.2.data)) :
    getCommit s' r.id = onlyIdRecord r.id ∧
    ∀ n, history s' r.branch (n + 1) = [onlyIdRecord r.id] := by
  have hshape : r.branch = currentBranch s ∧
      s'.objects = setEntry s.objects r.id (kvObjectContent r) ∧
      s'.refs = setEntry s.refs (currentBranch s) (r.id.data ++ ['\n']) := by
    rcases hrun with hrun | hrun
    · obtain ⟨_, _, hr, hs⟩ := mergeBranch_ok hash ts1 ts2 s branchName s' r hrun
      subst hs
      exact ⟨by rw [hr], rfl, rfl⟩
    · obtain ⟨_, hr, hs⟩ := revertCommit_ok hash ts1 ts2 s cid author s' r hrun
      subst hs
      exact ⟨by rw [hr], rfl, rfl⟩
  obtain ⟨hbranch, hobj, hrefs⟩ := hshape
  have hlook : lookup s'.objects r.id = some (kvObjectContent r) := by
    rw [hobj]
    exact lookup_setEntry_self _ _ _
  have hread : readCommit s' r.id = onlyIdRecord r.id :=
    readCommit_kvObject s' r.id r hlook hid hpar hau hts hbr hmsg hfiles
  have hex : commitExists s' r.id = true := by
    simp [commitExists, hlook]
  have hbh : branchHead s' r.branch = r.id := by
    have hl2 : lookup s'.refs r.branch = some (r.id.data ++ ['\n']) := by
      rw [hbranch, hrefs]
      exact lookup_setEntry_self _ _ _
    simp only [branchHead, hl2, firstLine?, getLines_single _ hid, List.head?_cons, hidt]
  refine ⟨by simp [getCommit, hex, hread], fun n => ?_⟩
  rw [history, hbh]
  simp only [historyLoop, if_neg hidne, hex, hread]
  simp [onlyIdRecord, emptyRecord, hidne, historyLoop_empty]

/-- Witness for `kvObject_getCommit_spec` at the concrete two-branch
repository. -/
theorem kvObject_getCommit_spec_witness :
    (mergeBranch idHash "T1" "T2" exTwoBranch "dev" =
        ((mergeBranch idHash "T1" "T2" exTwoBranch "dev").1,
          Except.ok (⟨"c1c0T1", "c0", "merge", "T2",
            "Merge branch 'dev' into 'main'", "main", [("f.txt", "b9")]⟩ :
            CommitRecord)) ∨
      revertCommit idHash "T1" "T2" exTwoBranch "x" "a" =
        ((mergeBranch idHash "T1" "T2" exTwoBranch "dev").1,
          Except.ok (⟨"c1c0T1", "c0", "merge", "T2",
            "Merge branch 'dev' into 'main'", "main", [("f.txt", "b9")]⟩ :
            CommitRecord))) ∧
    (getCommit (mergeBranch idHash "T1" "T2" exTwoBranch "dev").1 "c1c0T1" =
      onlyIdRecord "c1c0T1" ∧
    ∀ n, history (mergeBranch idHash "T1" "T2" exTwoBranch "dev").1 "main" (n + 1) =
      [onlyIdRecord "c1c0T1"]) :=
  ⟨Or.inl (by decide),
    kvObject_getCommit_spec idHash "T1" "T2" "dev" "x" "a" exTwoBranch
      (mergeBranch idHash "T1" "T2" exTwoBranch "dev").1
      ⟨"c1c0T1", "c0", "merge", "T2", "Merge branch 'dev' into 'main'", "main",
        [("f.txt", "b9")]⟩
      (Or.inl (by decide)) (by decide) (by decide) (by decide) (by decide) (by decide)
      (by decide) (by decide) (by decide) (by decide)⟩

/-! ### Claim C4 -/

/-- C4: for every logged-in actor, write access to a tracked repository
`(owner, repo)` holds iff the actor is an admin, equals the owner, or appears
in the collaborator set stored under the key `<owner>/<repo>`; the
`resolveRepoContext` gate grants a mutating operation exactly write access,
and a read-only operation additionally when visibility is `"public"`.  With no
session, write access is never granted. -/
theorem access_spec (u : Session) (perms : List (String × List String))
    (visibility owner repo : String) :
    (hasWriteAccess (some u) perms owner repo = true ↔
      (u.role = "admin" ∨ u.username = owner ∨
        u.username ∈ (lookup perms (owner ++ "/" ++ repo)).getD [])) ∧
    (accessGranted true (some u) perms visibility owner repo =
      hasWriteAccess (some u) perms owner repo) ∧
    (accessGranted false (some u) perms visibility owner repo = true ↔
      (hasWriteAccess (some u) perms owner repo = true ∨ visibility = "public")) ∧
    hasWriteAccess none perms owner repo = false := by
  refine ⟨?_, ?_, ?_, rfl⟩
  · simp only [hasWriteAccess]
    by_cases h1 : u.role = "admin"
    · simp [h1]
    · by_cases h2 : u.username = owner
      · simp [h1, h2]
      · simp only [if_neg h1, if_neg h2]
        cases hl : lookup perms (owner ++ "/" ++ repo) with
        | none => simp [h1, h2]
        | some collabs => simp [h1, h2]
  · simp [accessGranted]
  · simp [accessGranted]

/-- Witness for `access_spec` at a concrete collaborator configuration. -/
theorem access_spec_witness :
    (hasWriteAccess (some ⟨"carol", "user"⟩) exApp.perms "alice" "proj" = true ↔
      (("user" : String) = "admin" ∨ ("carol" : String) = "alice" ∨
        ("carol" : String) ∈ (lookup exApp.perms ("alice" ++ "/" ++ "proj")).getD [])) ∧
    (accessGranted true (some ⟨"carol", "user"⟩) exApp.perms "private" "alice" "proj" =
      hasWriteAccess (some ⟨"carol", "user"⟩) exApp.perms "alice" "proj") ∧
    (accessGranted false (some ⟨"carol", "user"⟩) exApp.perms "private" "alice" "proj"
        = true ↔
      (hasWriteAccess (some ⟨"carol", "user"⟩) exApp.perms "alice" "proj" = true ∨
        ("private" : String) = "public")) ∧
    hasWriteAccess none exApp.perms "alice" "proj" = false :=
  access_spec ⟨"carol", "user"⟩ exApp.perms "private" "alice" "proj"

/-! ### Claim C5 -/

/-- C5 counterexample: from a freshly created repository, the engine trace
consisting of the single operation `checkout "feature"` (HEAD is rewritten
with no existence check, repo_service.cpp:36-39, gitlite_app.cpp:1605-1615)
reaches a state whose HEAD names a branch with no refs file. -/
theorem headValid_counterexample :
    headValid (List.foldl (step idHash) initialRepoState [Op.checkoutOp "feature"])
      = false := by
  decide

theorem headValid_of (s s' : RepoState) (hh : s'.head = s.head)
    (hr : ∃ v, s'.refs = setEntry s.refs (currentBranch s) v) : headValid s' = true := by
  obtain ⟨v, hr⟩ := hr
  have hcb : currentBranch s' = currentBranch s := by
    unfold currentBranch
    rw [hh]
  simp [headValid, hcb, hr, lookup_setEntry_self]

/-- C5 amended: invariant I4 (HEAD names a branch with a refs file) holds in
the initial repository state and is preserved by every listed operation,
provided each checkout names an existing branch (with a well-formed
identifier) and each rename's new name is a well-formed identifier; an
unchecked `checkout` of a nonexistent branch is the one operation that can
break it. -/
theorem headValid_spec (hash : Chars → String) :
    headValid initialRepoState = true ∧
    ∀ s op, headValid s = true → opPrecondition s op →
      headValid (step hash s op) = true := by
  refine ⟨by decide, fun s op hv hpre => ?_⟩
  cases op with
  | commitOp author message ts =>
    by_cases h : readIndex s = []
    · simpa [step, commit, h] using hv
    · have h1 : (commit hash ts s author message).1.head = s.head := by
        simp only [commit, if_neg h]
        rfl
      have h2 : (commit hash ts s author message).1.refs =
          setEntry s.refs (currentBranch s)
            ((hash (commitBody author ts (currentBranch s)
              (branchHead s (currentBranch s)) message (readIndex s))).data ++ ['\n']) := by
        simp only [commit, if_neg h]
        rfl
      exact headValid_of s _ h1 ⟨_, h2⟩
  | createBranchOp name =>
    by_cases hex : (lookup s.refs name).isSome
    · simpa [step, createBranch, hex] using hv
    · have hstep : step hash s (.createBranchOp name) =
          { s with refs := (setEntry s.refs name ((branchHead s (currentBranch s)).data ++ ['\n'])) } := by
        simp [step, createBranch, hex]
      rw [hstep]
      have hcb : currentBranch
          { s with refs := (setEntry s.refs name ((branchHead s (currentBranch s)).data ++ ['\n'])) }
          = currentBranch s := rfl
      by_cases heq : currentBranch s = name
      · rw [headValid, hcb, heq, lookup_setEntry_self]
        rfl
      · rw [headValid, hcb, lookup_setEntry_ne _ _ _ _ heq]
        exact hv
  | renameBranchOp oldName newName =>
    cases hold : lookup s.refs oldName with
    | none => simpa [step, renameBranch, hold] using hv
    | some content =>
      by_cases hnew : (lookup s.refs newName).isSome
      · simpa [step, renameBranch, hold, hnew] using hv
      · have hvalid : isValidIdentifier newName = true := hpre
        set s1 : RepoState :=
          { s with refs := setEntry (removeEntry s.refs oldName) newName content } with hs1
        have hcb1 : currentBranch s1 = currentBranch s := rfl
        have hrefs1 : s1.refs = setEntry (removeEntry s.refs oldName) newName content := rfl
        by_cases hco : currentBranch s = oldName
        · have hstep : step hash s (.renameBranchOp oldName newName) =
              setCurrentBranch s1 newName := by
            show (renameBranch s oldName newName).1 = _
            simp only [renameBranch, hold, if_neg hnew, ← hs1, hcb1, if_pos hco]
          rw [hstep]
          have hcbn : currentBranch (setCurrentBranch s1 newName) = newName :=
            currentBranch_setCurrentBranch s1 newName hvalid
          rw [headValid, hcbn,
            show (setCurrentBranch s1 newName).refs = s1.refs from rfl,
            hrefs1, lookup_setEntry_self]
          rfl
        · have hstep : step hash s (.renameBranchOp oldName newName) = s1 := by
            show (renameBranch s oldName newName).1 = _
            simp only [renameBranch, hold, if_neg hnew, ← hs1, hcb1, if_neg hco]
          rw [hstep, headValid, hcb1, hrefs1]
          by_cases hcn : currentBranch s = newName
          · rw [hcn, lookup_setEntry_self]
            rfl
          · rw [lookup_setEntry_ne _ _ _ _ hcn, lookup_removeEntry_ne _ _ _ hco]
            exact hv
  | deleteBranchOp name =>
    by_cases hex : (lookup s.refs name).isNone
    · simpa [step, deleteBranch, hex] using hv
    · by_cases hcur : currentBranch s = name
      · simpa [step, deleteBranch, hex, hcur] using hv
      · have hstep : step hash s (.deleteBranchOp name) =
            { s with refs := removeEntry s.refs name } := by
          simp [step, deleteBranch, hex, hcur]
        rw [hstep]
        have hcb : currentBranch { s with refs := removeEntry s.refs name }
            = currentBranch s := rfl
        simp only [headValid, hcb, lookup_removeEntry_ne _ _ _ hcur]
        exact hv
  | checkoutOp name =>
    obtain ⟨hvalid, hexist⟩ := hpre
    have hcb : currentBranch (setCurrentBranch s name) = name :=
      currentBranch_setCurrentBranch s name hvalid
    show headValid (setCurrentBranch s name) = true
    rw [headValid, hcb, show (setCurrentBranch s name).refs = s.refs from rfl]
    exact hexist
  | mergeOp branch ts1 ts2 =>
    by_cases hc : currentBranch s = branch
    · simpa [step, mergeBranch, hc] using hv
    · by_cases hh : branchHead s branch = ""
      · simpa [step, mergeBranch, hc, hh] using hv
      · have h1 : (mergeBranch hash ts1 ts2 s branch).1.head = s.head := by
          simp only [mergeBranch, if_neg hc, if_neg hh]
          rfl
        have h2 : (mergeBranch hash ts1 ts2 s branch).1.refs =
            setEntry s.refs (currentBranch s)
              ((hash ((branchHead s branch).data
                ++ (branchHead s (currentBranch s)).data ++ ts1.data)).data ++ ['\n']) := by
          simp only [mergeBranch, if_neg hc, if_neg hh]
          rfl
        exact headValid_of s _ h1 ⟨_, h2⟩
  | rebaseOp branch =>
    by_cases hc : currentBranch s = branch
    · simpa [step, rebaseBranch, hc] using hv
    · by_cases hh : branchHead s branch = ""
      · simpa [step, rebaseBranch, hc, hh] using hv
      · have h1 : (rebaseBranch s branch).1.head = s.head := by
          simp only [rebaseBranch, if_neg hc, if_neg hh]
          rfl
        have h2 : (rebaseBranch s branch).1.refs =
            setEntry s.refs (currentBranch s) ((branchHead s branch).data ++ ['\n']) := by
          simp only [rebaseBranch, if_neg hc, if_neg hh]
          rfl
        exact headValid_of s _ h1 ⟨_, h2⟩

/-- Witness for `headValid_spec`: a checkout of the existing `main` branch
from the initial state preserves I4. -/
theorem headValid_spec_witness :
    (headValid initialRepoState = true ∧
      opPrecondition initialRepoState (Op.checkoutOp "main")) ∧
    headValid (step idHash initialRepoState (Op.checkoutOp "main")) = true :=
  ⟨⟨by decide, ⟨by decide, by decide⟩⟩,
    (headValid_spec idHash).2 initialRepoState (Op.checkoutOp "main")
      (by decide) ⟨by decide, by decide⟩⟩

/-! ### Claim C6 -/

/-- C6 counterexample: `addFile` applies no traversal check.  Called with
`../secret` — a relative path with a `..` component that resolves outside
`workspace/` — it succeeds, reads the file `<root>/secret` lying outside the
workspace, stages `("../secret", blob)`, and changes the index. -/
theorem addFile_escape_counterexample :
    ("..") ∈ pathComponents "../secret" ∧
    resolvePath ["workspace"] (pathComponents "../secret") = ["secret"] ∧
    (addFile (fun _ => "b0") exOutside "../secret").2.1 = true ∧
    readIndex (addFile (fun _ => "b0") exOutside "../secret").1 = [("../secret", "b0")] ∧
    readIndex (addFile (fun _ => "b0") exOutside "../secret").1 ≠ readIndex exOutside :=
  ⟨by decide, by decide, by decide, by decide, by decide⟩

/-- C6 amended: `addFile` itself performs no `..` check: it fails exactly when
the resolved `workspace/<rel_path>` names no existing file (leaving the state
unchanged), and otherwise succeeds and stages `(rel_path, blob)` — even when
the path escapes `workspace/`.  Escaping paths are neutralized only in
`handleAddCommand`, whose sanitizer drops every `..` component before the
service is called. -/
theorem addFile_spec (hash : Chars → String) (s : RepoState) (relativePath : String) :
    (lookup s.worktree (resolvePath ["workspace"] (pathComponents relativePath)) = none →
      addFile hash s relativePath = (s, false, "File not found in workspace.")) ∧
    (∀ content,
      lookup s.worktree (resolvePath ["workspace"] (pathComponents relativePath))
          = some content →
      (addFile hash s relativePath).2.1 = true ∧
      ∃ entries, (addFile hash s relativePath).1.indexFile = indexContent entries ∧
        (relativePath, hash content) ∈ entries) ∧
    (∀ comps, ("..") ∉ sanitizeRelativePath comps) := by
  refine ⟨?_, ?_, ?_⟩
  · intro h
    simp [addFile, h]
  · intro content h
    have hflag : (addFile hash s relativePath).2.1 = true := by
      simp only [addFile, h]
    have hidx : (addFile hash s relativePath).1.indexFile =
        indexContent (if ((readIndex s).any fun e => decide (e.1 = relativePath)) = true
          then (readIndex s).map fun e => if e.1 = relativePath then (e.1, hash content) else e
          else readIndex s ++ [(relativePath, hash content)]) := by
      simp only [addFile, h]
      split <;> rfl
    refine ⟨hflag, _, hidx, ?_⟩
    split
    next hany =>
      obtain ⟨e, he, hee⟩ := List.any_eq_true.1 hany
      refine List.mem_map.2 ⟨e, he, ?_⟩
      have he1 : e.1 = relativePath := of_decide_eq_true hee
      simp [he1]
    next _ => exact List.mem_append_right _ (by simp)
  · intro comps hm
    have := (List.mem_filter.1 hm).2
    simp at this

/-- Witness for `addFile_spec`: the escaping path `../secret` resolves to an
existing file and is staged. -/
theorem addFile_spec_witness :
    lookup exOutside.worktree
      (resolvePath ["workspace"] (pathComponents "../secret")) = some (str "top") ∧
    ((addFile (fun _ => "b0") exOutside "../secret").2.1 = true ∧
      ∃ entries,
        (addFile (fun _ => "b0") exOutside "../secret").1.indexFile =
          indexContent entries ∧
        ("../secret", ("b0" : String)) ∈ entries) :=
  ⟨by decide,
    (addFile_spec (fun _ => "b0") exOutside "../secret").2.1 (str "top") (by decide)⟩

/-! ### Claim C7 -/

theorem mem_map_fst_setEntry {κ α : Type} [DecidableEq κ] (l : List (κ × α)) (k x : κ)
    (v : α) (h : x ∈ (setEntry l k v).map Prod.fst) : x = k ∨ x ∈ l.map Prod.fst := by
  induction l with
  | nil => simpa [setEntry] using h
  | cons hd tl ih =>
    obtain ⟨k0, v0⟩ := hd
    by_cases h0 : k0 = k
    · simp only [setEntry, if_pos h0, List.map_cons, List.mem_cons] at h
      rcases h with h | h
      · exact Or.inl h
      · exact Or.inr (by simp [h])
    · simp only [setEntry, if_neg h0, List.map_cons, List.mem_cons] at h
      rcases h with h | h
      · exact Or.inr (by simp [h])
      · rcases ih h with h | h
        · exact Or.inl h
        · exact Or.inr (by simp [h])

theorem map_fst_nodup_setEntry {κ α : Type} [DecidableEq κ] (l : List (κ × α)) (k : κ)
    (v : α) (h : (l.map Prod.fst).Nodup) : ((setEntry l k v).map Prod.fst).Nodup := by
  induction l with
  | nil => simp [setEntry]
  | cons hd tl ih =>
    obtain ⟨k0, v0⟩ := hd
    simp only [List.map_cons, List.nodup_cons] at h
    by_cases h0 : k0 = k
    · subst h0
      have hs : setEntry ((k0, v0) :: tl) k0 v = (k0, v) :: tl := by
        simp [setEntry]
      rw [hs, List.map_cons, List.nodup_cons]
      exact h
    · simp only [setEntry, if_neg h0, List.map_cons, List.nodup_cons]
      refine ⟨fun hm => ?_, ih h.2⟩
      rcases mem_map_fst_setEntry tl k k0 v hm with he | he
      · exact h0 he
      · exact h.1 he

theorem key_ne_of_user_ne (a b repo : String) (h : a ≠ b) :
    a ++ "/" ++ repo ≠ b ++ "/" ++ repo := by
  intro hc
  apply h
  have hd : a.data ++ ("/" : String).data ++ repo.data
      = b.data ++ ("/" : String).data ++ repo.data := congrArg String.data hc
  exact String.ext (List.append_cancel_right (List.append_cancel_right hd))

/-- C7 counterexample: an admin who does not own the repository cannot
transfer it.  `handleTransferCommand` always resolves the repository in the
session user's own namespace, so the admin `root` transferring `alice`'s
existing `proj` to the existing user `bob` (who has no `proj`) is answered
"Repository not found" and nothing moves. -/
theorem transfer_admin_counterexample :
    handleTransferCommand (some ⟨"root", "admin"⟩) exApp "proj" "bob" =
      (exApp, "Error: Repository not found.") ∧
    repoExists exApp "alice" "proj" = true ∧
    userExists exApp "bob" = true ∧
    repoExists exApp "bob" "proj" = false :=
  ⟨by decide, by decide, by decide, by decide⟩

/-- C7 amended: transfer always interprets `repo` in the caller's own
namespace.  A caller who does not own `<caller>/<repo>` is rejected — a
non-admin with "Only repo owner or admin can transfer repositories.", an
admin with "Repository not found." — so admins cannot transfer repositories
they do not own.  When the caller owns the repository, `new_owner` exists and
has no repository of that name, the transfer succeeds: the directory moves to
the new owner's namespace and the permission-map key `<old>/<repo>` is
rewritten to `<new>/<repo>` when present (and the map is untouched when
absent). -/
theorem transfer_spec (u : Session) (st : AppState) (repo newOwner : String)
    (hnd : (st.perms.map Prod.fst).Nodup) :
    (u.role ≠ "admin" → repoExists st u.username repo = false →
      handleTransferCommand (some u) st repo newOwner =
        (st, "Error: Only repo owner or admin can transfer repositories.")) ∧
    (u.role = "admin" → repoExists st u.username repo = false →
      userExists st newOwner = true →
      handleTransferCommand (some u) st repo newOwner =
        (st, "Error: Repository not found.")) ∧
    (repoExists st u.username repo = true → userExists st newOwner = true →
      repoExists st newOwner repo = false →
      ∃ st', handleTransferCommand (some u) st repo newOwner =
          (st', "Repository transferred to '" ++ newOwner ++ "'.") ∧
        (u.username, repo) ∉ st'.dirs ∧
        (newOwner, repo) ∈ st'.dirs ∧
        (∀ collabs, lookup st.perms (u.username ++ "/" ++ repo) = some collabs →
          lookup st'.perms (newOwner ++ "/" ++ repo) = some collabs ∧
          lookup st'.perms (u.username ++ "/" ++ repo) = none) ∧
        (lookup st.perms (u.username ++ "/" ++ repo) = none →
          st'.perms = st.perms)) := by
  refine ⟨?_, ?_, ?_⟩
  · intro h1 h2
    simp only [handleTransferCommand, if_pos (And.intro h1 h2)]
  · intro h1 h2 h3
    simp only [handleTransferCommand,
      if_neg (fun hcon : u.role ≠ "admin" ∧ repoExists st u.username repo = false =>
        hcon.1 h1),
      if_neg (show ¬userExists st newOwner = false by rw [h3]; simp),
      if_pos h2]
  · intro h1 h2 h3
    have hne : u.username ≠ newOwner := by
      intro he
      rw [he, h3] at h1
      cases h1
    simp only [handleTransferCommand,
      if_neg (fun hcon : u.role ≠ "admin" ∧ repoExists st u.username repo = false =>
        by rw [h1] at hcon; cases hcon.2),
      if_neg (show ¬userExists st newOwner = false by rw [h2]; simp),
      if_neg (show ¬repoExists st u.username repo = false by rw [h1]; simp),
      if_neg (show ¬repoExists st newOwner repo = true by rw [h3]; simp)]
    refine ⟨_, rfl, ?_, ?_, ?_, ?_⟩
    · intro hm
      rcases List.mem_append.1 hm with hm | hm
      · exact of_decide_eq_true (List.mem_filter.1 hm).2 rfl
      · have hp : (u.username, repo) = (newOwner, repo) := by simpa using hm
        injection hp with hfst _
        exact hne hfst
    · exact List.mem_append_right _ (by simp)
    · intro collabs hc
      simp only [hc]
      constructor
      · rw [lookup_removeEntry_ne _ _ _
          (key_ne_of_user_ne newOwner u.username repo (Ne.symm hne))]
        exact lookup_setEntry_self _ _ _
      · exact lookup_removeEntry_self _ _
          (map_fst_nodup_setEntry _ _ _ hnd)
    · intro hc
      simp only [hc]

/-- Witness for `transfer_spec`: the owner `alice` successfully transfers
`proj` to `bob`. -/
theorem transfer_spec_witness :
    ((exApp.perms.map Prod.fst).Nodup ∧
      repoExists exApp "alice" "proj" = true ∧
      userExists exApp "bob" = true ∧
      repoExists exApp "bob" "proj" = false) ∧
    (∃ st', handleTransferCommand (some ⟨"alice", "user"⟩) exApp "proj" "bob" =
        (st', "Repository transferred to '" ++ "bob" ++ "'.") ∧
      (("alice" : String), ("proj" : String)) ∉ st'.dirs ∧
      (("bob" : String), ("proj" : String)) ∈ st'.dirs ∧
      (∀ collabs, lookup exApp.perms ("alice" ++ "/" ++ "proj") = some collabs →
        lookup st'.perms ("bob" ++ "/" ++ "proj") = some collabs ∧
        lookup st'.perms ("alice" ++ "/" ++ "proj") = none) ∧
      (lookup exApp.perms ("alice" ++ "/" ++ "proj") = none →
        st'.perms = exApp.perms)) :=
  ⟨⟨by decide, by decide, by decide, by decide⟩,
    (transfer_spec ⟨"alice", "user"⟩ exApp "proj" "bob" (by decide)).2.2
      (by decide) (by decide) (by decide)⟩

/-! ### Claim C8 -/

/-- C8: after `push(L, R)` followed by `pull(L', R)` into any — in particular
a fresh — local copy `L'`, the copy equals `L`: same object set, same ref set
(branch heads and tags), and byte-identical workspace files; and `pull` fails
with "Remote not found.", leaving the local repository untouched, when the
remote directory does not exist. -/
theorem pushPull_spec (L L' : RepoDirs) (R : Option RepoDirs)
    (hg : L.glite ≠ none) (hw : L.workspace ≠ none) :
    (push L R).2 = .ok () ∧
    (pull L' (push L R).1).1 = L ∧
    (pull L' (push L R).1).2 = .ok () ∧
    objectSet (pull L' (push L R).1).1 = objectSet L ∧
    refSet (pull L' (push L R).1).1 = refSet L ∧
    (pull L' (push L R).1).1.workspace = L.workspace ∧
    ∀ Lx, pull Lx none = (Lx, .error "Remote not found.") := by
  rcases L with ⟨lg, lw⟩
  rcases lg with _ | g
  · exact absurd rfl hg
  rcases lw with _ | w
  · exact absurd rfl hw
  exact ⟨rfl, rfl, rfl, rfl, rfl, rfl, fun Lx => rfl⟩

/-- Witness for `pushPull_spec` at a concrete one-object repository. -/
theorem pushPull_spec_witness :
    ((⟨some [(["objects", "c1"], str "x")], some [(["a.txt"], str "hi")]⟩ :
        RepoDirs).glite ≠ none ∧
      (⟨some [(["objects", "c1"], str "x")], some [(["a.txt"], str "hi")]⟩ :
        RepoDirs).workspace ≠ none) ∧
    ((push ⟨some [(["objects", "c1"], str "x")], some [(["a.txt"], str "hi")]⟩ none).2
        = .ok () ∧
      (pull ⟨none, none⟩ (push ⟨some [(["objects", "c1"], str "x")],
          some [(["a.txt"], str "hi")]⟩ none).1).1 =
        ⟨some [(["objects", "c1"], str "x")], some [(["a.txt"], str "hi")]⟩ ∧
      (pull ⟨none, none⟩ (push ⟨some [(["objects", "c1"], str "x")],
          some [(["a.txt"], str "hi")]⟩ none).1).2 = .ok () ∧
      objectSet (pull ⟨none, none⟩ (push ⟨some [(["objects", "c1"], str "x")],
          some [(["a.txt"], str "hi")]⟩ none).1).1 =
        objectSet ⟨some [(["objects", "c1"], str "x")], some [(["a.txt"], str "hi")]⟩ ∧
      refSet (pull ⟨none, none⟩ (push ⟨some [(["objects", "c1"], str "x")],
          some [(["a.txt"], str "hi")]⟩ none).1).1 =
        refSet ⟨some [(["objects", "c1"], str "x")], some [(["a.txt"], str "hi")]⟩ ∧
      (pull ⟨none, none⟩ (push ⟨some [(["objects", "c1"], str "x")],
          some [(["a.txt"], str "hi")]⟩ none).1).1.workspace =
        (⟨some [(["objects", "c1"], str "x")], some [(["a.txt"], str "hi")]⟩ :
          RepoDirs).workspace ∧
      ∀ Lx, pull Lx none = (Lx, .error "Remote not found.")) :=
  ⟨⟨by decide, by decide⟩,
    pushPull_spec ⟨some [(["objects", "c1"], str "x")], some [(["a.txt"], str "hi")]⟩
      ⟨none, none⟩ none (by decide) (by decide)⟩

/-! ### Claim C10 -/

/-- C10 counterexample: a HEAD file whose first line is `  ref: dev` does not
begin with `ref:`, yet the current branch is reported as `dev`, not `main` —
the fallback applies only to the *trimmed* first line. -/
theorem currentBranch_counterexample :
    ((firstLine? (str "  ref: dev\n")).map fun line =>
      (str "ref:").isPrefixOf line) = some false ∧
    currentBranch exWeirdHead = "dev" ∧
    currentBranch exWeirdHead ≠ "main" :=
  ⟨by decide, by decide, by decide⟩

/-- C10 amended: whenever `.glite/HEAD` is missing, empty, or its first line
*after trimming* does not begin with `ref:`, the current branch is reported
as `"main"` — exactly what HEAD = `ref: main\n` reports — and an operation
consulting the current branch (e.g. `commit`) returns the same outcome as on
the state with HEAD = `ref: main\n`. -/
theorem currentBranch_default (s : RepoState)
    (h : s.head = none ∨ ∃ content, s.head = some content ∧
      (firstLine? content = none ∨ ∃ line, firstLine? content = some line ∧
        (str "ref:").isPrefixOf (trimChars line) = false)) :
    currentBranch s = "main" ∧
    currentBranch { s with head := some (str "ref: main\n") } = "main" ∧
    ∀ hash ts author message,
      (commit hash ts s author message).2 =
        (commit hash ts { s with head := some (str "ref: main\n") } author message).2 := by
  have h1 : currentBranch s = "main" := by
    rcases h with h | ⟨content, hc, h⟩
    · simp [currentBranch, h]
    · rcases h with h | ⟨line, hl, hp⟩
      · simp [currentBranch, hc, firstLine?] at h ⊢
        simp [h]
      · have hp' : ¬(str "ref:" <+: trimChars line) := fun hcon =>
          absurd (List.isPrefixOf_iff_prefix.2 hcon) (by simp [hp])
        simp [currentBranch, hc, firstLine?] at hl ⊢
        simp [hl, hp']
  have h2 : currentBranch { s with head := some (str "ref: main\n") } = "main" := rfl
  refine ⟨h1, h2, fun hash ts author message => ?_⟩
  have hidx : readIndex { s with head := some (str "ref: main\n") } = readIndex s := rfl
  by_cases hi : readIndex s = []
  · simp [commit, hi, hidx]
  · simp only [commit, hidx, if_neg hi, h1, h2]
    rfl

/-- Witness for `currentBranch_default` at a HEAD whose first line is
unrecognized garbage. -/
theorem currentBranch_default_witness :
    (({ initialRepoState with head := some (str "garbage\n") } : RepoState).head = none ∨
      ∃ content,
        ({ initialRepoState with head := some (str "garbage\n") } : RepoState).head
          = some content ∧
        (firstLine? content = none ∨ ∃ line, firstLine? content = some line ∧
          (str "ref:").isPrefixOf (trimChars line) = false)) ∧
    (currentBranch { initialRepoState with head := some (str "garbage\n") } = "main" ∧
      currentBranch { { initialRepoState with head := some (str "garbage\n") } with
        head := some (str "ref: main\n") } = "main" ∧
      ∀ hash ts author message,
        (commit hash ts { initialRepoState with head := some (str "garbage\n") }
          author message).2 =
        (commit hash ts { { initialRepoState with head := some (str "garbage\n") } with
          head := some (str "ref: main\n") } author message).2) :=
  ⟨Or.inr ⟨str "garbage\n", rfl, Or.inr ⟨str "garbage", by decide, by decide⟩⟩,
    currentBranch_default { initialRepoState with head := some (str "garbage\n") }
      (Or.inr ⟨str "garbage\n", rfl, Or.inr ⟨str "garbage", by decide, by decide⟩⟩)⟩

end GitLite
